import Mathlib

/-!
Verification development for the URL audit tool (src/url_audit_app.py).

The file shallowly embeds the Python source: the URL parsing primitives
(a model of the pieces of urllib.parse the program uses), the regular
expression matching (a model of the fragment of the re module exercised by
the fixed pattern tables and tracked rules), the DomainCrawler class
(normalization, link filtering, breadth-first crawl) and the URLMatcher
class (exact and regex coverage classification).  Network fetching and
HTML anchor extraction are external collaborators of the program and are
modelled by an oracle function from a page URL to the list of resolved
absolute href strings extracted from that page; a failed fetch (timeout,
non-200, non-HTML body) behaves as an empty link list, exactly as in the
source where every such case degrades to zero links.

Machine-level caveats of the model, recorded once here: Python strings are
unicode and str.lower lowers unicode letters, while the model lowers only
ASCII letters; the scheme test of urllib.parse requires an ASCII letter,
which the model captures exactly.  Python re supports more syntax than the
model engine; regex bodies outside the modelled fragment are treated as
failing to compile.  All 33 fixed exclusion patterns of the source compile
in the model engine (proved below by evaluation).
-/

namespace UA

/-- Model of Python str.lower restricted to ASCII letters, written as a
lookup over the 26 uppercase/lowercase pairs so that its properties follow
by case analysis on the table. -/
def upperLowerTable : List (Char × Char) :=
  [('A', 'a'), ('B', 'b'), ('C', 'c'), ('D', 'd'), ('E', 'e'), ('F', 'f'),
   ('G', 'g'), ('H', 'h'), ('I', 'i'), ('J', 'j'), ('K', 'k'), ('L', 'l'),
   ('M', 'm'), ('N', 'n'), ('O', 'o'), ('P', 'p'), ('Q', 'q'), ('R', 'r'),
   ('S', 's'), ('T', 't'), ('U', 'u'), ('V', 'v'), ('W', 'w'), ('X', 'x'),
   ('Y', 'y'), ('Z', 'z')]

/-- Model of Python char.lower(): ASCII uppercase maps to lowercase, every
other character is unchanged. -/
def pyLower (c : Char) : Char :=
  match upperLowerTable.find? (fun p => p.1 == c) with
  | some p => p.2
  | none => c

/-- Lowercase a string character by character (model of str.lower). -/
def lowerS (s : String) : String := ⟨s.data.map pyLower⟩

/-- The ASCII letters, as Python url[0].isascii() and url[0].isalpha()
jointly test them in the urlsplit scheme check. -/
def asciiAlpha (c : Char) : Bool :=
  "abcdefghijklmnopqrstuvwxyzABCDEFGHIJKLMNOPQRSTUVWXYZ".data.contains c

/-- The characters urllib.parse allows inside a scheme. -/
def schemeChar (c : Char) : Bool :=
  asciiAlpha c || "0123456789+-.".data.contains c

theorem pyLower_idem (c : Char) : pyLower (pyLower c) = pyLower c := by
  rcases h : upperLowerTable.find? (fun p => p.1 == c) with _ | p
  · have hc : pyLower c = c := by unfold pyLower; rw [h]
    rw [hc]; exact hc
  · have hc : pyLower c = p.2 := by unfold pyLower; rw [h]
    have hp := List.mem_of_find?_eq_some h
    rw [hc]
    clear h hc
    fin_cases hp <;> decide

theorem asciiAlpha_pyLower (c : Char) (h : asciiAlpha c = true) :
    asciiAlpha (pyLower c) = true := by
  rcases hf : upperLowerTable.find? (fun p => p.1 == c) with _ | p
  · have hc : pyLower c = c := by unfold pyLower; rw [hf]
    rw [hc]; exact h
  · have hc : pyLower c = p.2 := by unfold pyLower; rw [hf]
    have hp := List.mem_of_find?_eq_some hf
    rw [hc]
    clear hf hc h
    fin_cases hp <;> decide

theorem schemeChar_pyLower (c : Char) (h : schemeChar c = true) :
    schemeChar (pyLower c) = true := by
  rcases hf : upperLowerTable.find? (fun p => p.1 == c) with _ | p
  · have hc : pyLower c = c := by unfold pyLower; rw [hf]
    rw [hc]; exact h
  · have hc : pyLower c = p.2 := by unfold pyLower; rw [hf]
    have hp := List.mem_of_find?_eq_some hf
    rw [hc]
    clear hf hc h
    fin_cases hp <;> decide

/-- Split a character list at the first occurrence of a delimiter,
returning the parts strictly before and after it. -/
def splitFirst (d : Char) : List Char → Option (List Char × List Char)
  | [] => none
  | c :: cs =>
    if c = d then some ([], cs)
    else match splitFirst d cs with
      | some (a, b) => some (c :: a, b)
      | none => none

theorem splitFirst_eq_some {d : Char} :
    ∀ {l a b : List Char}, splitFirst d l = some (a, b) →
      l = a ++ d :: b ∧ d ∉ a := by
  intro l
  induction l with
  | nil => intro a b h; simp [splitFirst] at h
  | cons c cs ih =>
    intro a b h
    by_cases hc : c = d
    · simp [splitFirst, hc] at h
      obtain ⟨rfl, rfl⟩ := h
      simp [hc]
    · simp only [splitFirst, if_neg hc] at h
      rcases hs : splitFirst d cs with _ | ⟨a0, b0⟩
      · rw [hs] at h; simp at h
      · rw [hs] at h
        simp at h
        obtain ⟨rfl, rfl⟩ := h
        obtain ⟨h1, h2⟩ := ih hs
        constructor
        · simp [h1]
        · simp [h2]
          intro he
          exact hc he.symm

theorem splitFirst_eq_none {d : Char} :
    ∀ {l : List Char}, splitFirst d l = none → d ∉ l := by
  intro l
  induction l with
  | nil => intro _; simp
  | cons c cs ih =>
    intro h
    by_cases hc : c = d
    · simp [splitFirst, hc] at h
    · simp only [splitFirst, if_neg hc] at h
      rcases hs : splitFirst d cs with _ | p
      · have h2 := ih hs
        simp only [List.mem_cons, not_or]
        exact ⟨fun he => hc he.symm, h2⟩
      · rw [hs] at h; simp at h

theorem splitFirst_append {d : Char} :
    ∀ {a : List Char} (b : List Char), d ∉ a →
      splitFirst d (a ++ d :: b) = some (a, b) := by
  intro a
  induction a with
  | nil => intro b _; simp [splitFirst]
  | cons c cs ih =>
    intro b h
    simp only [List.mem_cons, not_or] at h
    obtain ⟨h1, h2⟩ := h
    have hne : ¬(c = d) := fun he => h1 he.symm
    rw [List.cons_append]
    simp only [splitFirst, if_neg hne, ih b h2]

theorem splitFirst_not_mem {d : Char} :
    ∀ {l : List Char}, d ∉ l → splitFirst d l = none := by
  intro l
  induction l with
  | nil => intro _; rfl
  | cons c cs ih =>
    intro h
    simp only [List.mem_cons, not_or] at h
    obtain ⟨h1, h2⟩ := h
    have hne : ¬(c = d) := fun he => h1 he.symm
    simp only [splitFirst, if_neg hne, ih h2]

/-- Strip all trailing occurrences of a slash (model of rstrip with a
slash argument). -/
def rstripSlashL (l : List Char) : List Char :=
  (l.reverse.dropWhile (fun c => c == '/')).reverse

/-- rstrip on strings. -/
def rstripSlash (s : String) : String := ⟨rstripSlashL s.data⟩

/-- Model of Python str.strip(): drop ASCII whitespace from both ends. -/
def pyStrip (s : String) : String :=
  ⟨((s.data.dropWhile Char.isWhitespace).reverse.dropWhile Char.isWhitespace).reverse⟩

/-- Does the string start with the given characters (model of
str.startswith)? -/
def startsWithS (s pre : String) : Bool := pre.data.isPrefixOf s.data

/-- Does the string end with the given characters (model of
str.endswith)? -/
def endsWithS (s suf : String) : Bool := suf.data.isSuffixOf s.data

/-- Replace all non-overlapping occurrences of a nonempty pattern, left to
right (model of Python str.replace for the nonempty patterns the source
uses).  The fuel argument is the length of the subject and always
suffices because every step consumes at least one character. -/
def replaceAllAux (pat rep : List Char) : Nat → List Char → List Char
  | _, [] => []
  | 0, s => s
  | fuel + 1, c :: cs =>
    if !pat.isEmpty && pat.isPrefixOf (c :: cs) then
      rep ++ replaceAllAux pat rep fuel ((c :: cs).drop pat.length)
    else
      c :: replaceAllAux pat rep fuel cs

/-- str.replace on strings. -/
def strReplace (s pat rep : String) : String :=
  ⟨replaceAllAux pat.data rep.data s.data.length s.data⟩

/-! ## The URL parsing model

Model of urllib.parse: urlsplit over the five components scheme, netloc,
path, query and fragment, and on top of it urlparse, which for a scheme
of uses_params splits the params of the last path segment off the path,
together with urlunsplit and urlunparse (geturl), which reattaches a
nonempty params component to the path before rebuilding.  Parsing
returns none exactly when CPython urlsplit raises ValueError, which
happens when the netloc contains an unbalanced square bracket. -/

structure ParsedURL where
  scheme : String
  netloc : String
  path : String
  query : String
  fragment : String
deriving DecidableEq, Repr

/-- The urlsplit scheme test: nonempty, leading ASCII letter, every
character a scheme character. -/
def isSchemeLike (l : List Char) : Bool :=
  match l with
  | [] => false
  | c :: _ => asciiAlpha c && l.all schemeChar

/-- Phase 1 of urlsplit: recognize and lowercase a scheme prefix. -/
def schemeSplit (l : List Char) : List Char × List Char :=
  match splitFirst ':' l with
  | some (pre, post) =>
    if isSchemeLike pre then (pre.map pyLower, post) else ([], l)
  | none => ([], l)

/-- Characters that terminate the netloc in urlsplit. -/
def netlocDelim (c : Char) : Bool := c == '/' || c == '?' || c == '#'

/-- Phase 2 of urlsplit: consume a network location after a double
slash. -/
def netSplit (l : List Char) : List Char × List Char :=
  if l.take 2 = ['/', '/'] then
    ((l.drop 2).takeWhile (fun c => !netlocDelim c),
     (l.drop 2).dropWhile (fun c => !netlocDelim c))
  else ([], l)

/-- Phase 3 of urlsplit: split off the fragment at the first hash. -/
def fragSplit (l : List Char) : List Char × List Char :=
  match splitFirst '#' l with
  | some (a, b) => (a, b)
  | none => (l, [])

/-- Phase 4 of urlsplit: split off the query at the first question
mark. -/
def querySplit (l : List Char) : List Char × List Char :=
  match splitFirst '?' l with
  | some (a, b) => (a, b)
  | none => (l, [])

/-- The WHATWG C0-control-or-space characters urlsplit strips from the
left of its input. -/
def isC0OrSpace (c : Char) : Bool := c.toNat ≤ 32

/-- The tab, carriage return and newline bytes urlsplit removes from
anywhere in its input. -/
def isUnsafeByte (c : Char) : Bool := c == '\t' || c == '\r' || c == '\n'

/-- The input preprocessing of urlsplit: strip leading C0 controls and
spaces, then remove every tab, carriage return and newline. -/
def cleanUrl (l : List Char) : List Char :=
  (l.dropWhile isC0OrSpace).filter (fun c => !isUnsafeByte c)

/-- Model of urllib.parse.urlsplit.  Returns none where CPython raises
ValueError for a netloc with a square bracket on only one side (the
additional bracketed-host address validation of very recent CPython and
the non-ASCII netloc check are outside the model, which treats such
inputs as parsing). -/
def parseCore (l : List Char) : Option ParsedURL :=
  let p1 := schemeSplit l
  let p2 := netSplit p1.2
  if p2.1.contains '[' ≠ p2.1.contains ']' then none
  else
    let p3 := fragSplit p2.2
    let p4 := querySplit p3.1
    some ⟨⟨p1.1⟩, ⟨p2.1⟩, ⟨p4.1⟩, ⟨p4.2⟩, ⟨p3.2⟩⟩

/-- Model of urllib.parse.urlsplit on strings. -/
def urlsplit (s : String) : Option ParsedURL := parseCore (cleanUrl s.data)

/-- The schemes for which urlunsplit reinstates a double slash even with
an empty netloc (urllib.parse.uses_netloc). -/
def usesNetloc : List String :=
  ["", "ftp", "http", "gopher", "nntp", "telnet", "imap", "wais", "file",
   "mms", "https", "shttp", "snews", "prospero", "rtsp", "rtsps", "rtspu",
   "rsync", "svn", "svn+ssh", "sftp", "nfs", "git", "git+ssh", "ws", "wss"]

/-- Model of urllib.parse.urlunsplit at the character-list level. -/
def urlunsplitL (S N P Q F : List Char) : List Char :=
  let u1 :=
    if N ≠ [] ∨ (S ≠ [] ∧ (⟨S⟩ : String) ∈ usesNetloc ∧ P.take 2 ≠ ['/', '/']) then
      '/' :: '/' :: N ++ (if P ≠ [] ∧ P.head? ≠ some '/' then '/' :: P else P)
    else P
  let u2 := if S ≠ [] then S ++ ':' :: u1 else u1
  let u3 := if Q ≠ [] then u2 ++ '?' :: Q else u2
  if F ≠ [] then u3 ++ '#' :: F else u3

/-- Model of urllib.parse.urlunsplit (SplitResult.geturl). -/
def urlunsplit (p : ParsedURL) : String :=
  ⟨urlunsplitL p.scheme.data p.netloc.data p.path.data p.query.data p.fragment.data⟩

/-- The schemes for which urlparse splits a params component off the
last path segment (urllib.parse.uses_params). -/
def usesParams : List String :=
  ["", "ftp", "hdl", "prospero", "http", "imap", "https", "shttp", "rtsp",
   "rtsps", "rtspu", "sip", "sips", "mms", "sftp", "tel"]

/-- Model of urllib.parse internal split of the params: with a slash in
the url, the split point is the first semicolon at or after the last
slash (no such semicolon leaves the url whole); without a slash it is
the first semicolon.  The caller only invokes it when the url contains a
semicolon. -/
def splitparams (url : List Char) : List Char × List Char :=
  match splitFirst '/' url.reverse with
  | some (rB, rA) =>
    match splitFirst ';' rB.reverse with
    | some (c, d) => (rA.reverse ++ '/' :: c, d)
    | none => (url, [])
  | none =>
    match splitFirst ';' url with
    | some (c, d) => (c, d)
    | none => (url, [])

/-- The six components of urllib.parse.urlparse. -/
structure ParseResult where
  scheme : String
  netloc : String
  path : String
  params : String
  query : String
  fragment : String
deriving DecidableEq, Repr

/-- The params step of urlparse on top of a split result. -/
def withParams (p : ParsedURL) : ParseResult :=
  if usesParams.contains p.scheme && p.path.data.contains ';' then
    ⟨p.scheme, p.netloc, ⟨(splitparams p.path.data).1⟩,
      ⟨(splitparams p.path.data).2⟩, p.query, p.fragment⟩
  else ⟨p.scheme, p.netloc, p.path, "", p.query, p.fragment⟩

/-- Model of urllib.parse.urlparse: urlsplit followed by the params
split for a scheme of uses_params. -/
def urlparse (s : String) : Option ParseResult := (urlsplit s).map withParams

/-- The path with a nonempty params component reattached, as urlunparse
rebuilds it. -/
def paramsPath (r : ParseResult) : List Char :=
  if r.params.data ≠ [] then r.path.data ++ ';' :: r.params.data
  else r.path.data

/-- Model of urllib.parse.urlunparse (ParseResult.geturl). -/
def urlunparse (r : ParseResult) : String :=
  urlunsplit ⟨r.scheme, r.netloc, ⟨paramsPath r⟩, r.query, r.fragment⟩

/-! ### Structural lemmas about the parsing phases -/

theorem takeWhile_append_stop {p : Char → Bool} :
    ∀ {N X : List Char}, (∀ c ∈ N, p c = true) →
      (X = [] ∨ ∃ c, X.head? = some c ∧ p c = false) →
      (N ++ X).takeWhile p = N ∧ (N ++ X).dropWhile p = X := by
  intro N
  induction N with
  | nil =>
    intro X _ hX
    rcases hX with rfl | ⟨c, hc, hpc⟩
    · exact ⟨rfl, rfl⟩
    · rcases X with _ | ⟨x, xs⟩
      · simp at hc
      · simp at hc
        subst hc
        simp [List.takeWhile, List.dropWhile, hpc]
  | cons n ns ih =>
    intro X hN hX
    have hn : p n = true := hN n (by simp)
    have hns : ∀ c ∈ ns, p c = true := fun c hc => hN c (by simp [hc])
    obtain ⟨h1, h2⟩ := ih hns hX
    constructor
    · simp [List.takeWhile, hn, h1]
    · simp [List.dropWhile, hn, h2]

theorem dropWhile_head_or_nil {p : Char → Bool} (l : List Char) :
    l.dropWhile p = [] ∨ ∃ c, (l.dropWhile p).head? = some c ∧ p c = false := by
  induction l with
  | nil => left; rfl
  | cons x xs ih =>
    by_cases hx : p x
    · simpa [List.dropWhile, hx] using ih
    · right
      exact ⟨x, by simp [List.dropWhile, hx], by simpa using hx⟩

theorem rstripSlashL_decomp (l : List Char) :
    ∃ k, l = rstripSlashL l ++ k ∧ ∀ c ∈ k, c = '/' := by
  refine ⟨(l.reverse.takeWhile (fun c => c == '/')).reverse, ?_, ?_⟩
  · unfold rstripSlashL
    conv_lhs => rw [← l.reverse_reverse, ← List.takeWhile_append_dropWhile
      (p := fun c => c == '/') (l := l.reverse)]
    rw [List.reverse_append]
  · intro c hc
    rw [List.mem_reverse] at hc
    have := List.mem_takeWhile_imp hc
    simpa using this

theorem mem_rstripSlashL {l : List Char} {c : Char} (h : c ∈ rstripSlashL l) : c ∈ l := by
  obtain ⟨k, hk, _⟩ := rstripSlashL_decomp l
  rw [hk]
  exact List.mem_append_left _ h

theorem rstripSlashL_head {l : List Char} (h : rstripSlashL l ≠ []) :
    (rstripSlashL l).head? = l.head? := by
  obtain ⟨k, hk, _⟩ := rstripSlashL_decomp l
  rcases hr : rstripSlashL l with _ | ⟨c, cs⟩
  · exact absurd hr h
  · rw [hr] at hk
    rw [hk]
    simp

theorem rstripSlashL_no_trailing (l : List Char) :
    rstripSlashL (rstripSlashL l) = rstripSlashL l := by
  unfold rstripSlashL
  rw [List.reverse_reverse]
  congr 1
  rcases hd : l.reverse.dropWhile (fun c => c == '/') with _ | ⟨c, cs⟩
  · rfl
  · have hc : (c == '/') = false := by
      have := List.head?_dropWhile_not (p := fun c => c == '/') l.reverse
      rw [hd] at this
      simpa using this
    simp [List.dropWhile, hc]

/-- The path rewrite of DomainCrawler normalize: strip trailing slashes,
an empty result becomes a single slash. -/
def normPath (l : List Char) : List Char :=
  if rstripSlashL l = [] then ['/'] else rstripSlashL l

theorem mem_normPath {l : List Char} {c : Char} (h : c ∈ normPath l) :
    c ∈ l ∨ c = '/' := by
  unfold normPath at h
  by_cases he : rstripSlashL l = []
  · rw [if_pos he] at h
    simp at h
    right
    simpa using h
  · rw [if_neg he] at h
    left
    exact mem_rstripSlashL h

theorem normPath_ne_nil (l : List Char) : normPath l ≠ [] := by
  unfold normPath
  by_cases he : rstripSlashL l = [] <;> simp [he]

theorem normPath_head {l : List Char} (h : l = [] ∨ l.head? = some '/') :
    (normPath l).head? = some '/' := by
  unfold normPath
  by_cases he : rstripSlashL l = []
  · simp [he]
  · rw [if_neg he, rstripSlashL_head he]
    rcases h with rfl | h
    · exact absurd (show rstripSlashL ([] : List Char) = [] from rfl) he
    · exact h

theorem normPath_idem (l : List Char) : normPath (normPath l) = normPath l := by
  by_cases he : rstripSlashL l = []
  · have h1 : normPath l = ['/'] := by unfold normPath; rw [if_pos he]
    rw [h1]
    decide
  · have h1 : normPath l = rstripSlashL l := by unfold normPath; rw [if_neg he]
    rw [h1]
    unfold normPath
    rw [rstripSlashL_no_trailing, if_neg he]

/-- DomainCrawler normalize: drop the fragment, collapse the trailing
slashes of the params-less path, rebuild with geturl (which reattaches a
nonempty params component); an input on which urlsplit raises is
returned unchanged (the except branch of the source). -/
def normalize_url (url : String) : String :=
  match urlparse url with
  | none => url
  | some p => urlunparse { p with path := ⟨normPath p.path.data⟩, fragment := "" }

/-! ### The parse and rebuild round trip

The invariants below hold of every ParsedURL produced by urlparse, and
they suffice for the rebuilt string of urlunsplit to parse back to the
same components whenever the netloc is nonempty.  This is the key fact
behind the normalizer theorems: on an absolute URL with a host,
normalization only rewrites the fragment and the trailing slashes of the
path. -/

theorem isSchemeLike_map_pyLower {l : List Char} (h : isSchemeLike l = true) :
    isSchemeLike (l.map pyLower) = true := by
  rcases l with _ | ⟨c, cs⟩
  · exact h
  · unfold isSchemeLike at h ⊢
    simp only [List.map_cons, Bool.and_eq_true] at h ⊢
    obtain ⟨h1, h2⟩ := h
    refine ⟨asciiAlpha_pyLower c h1, ?_⟩
    rw [List.all_eq_true] at h2 ⊢
    intro x hx
    rw [← List.map_cons, List.mem_map] at hx
    obtain ⟨y, hy, rfl⟩ := hx
    exact schemeChar_pyLower y (h2 y hy)

theorem map_pyLower_idem (l : List Char) :
    (l.map pyLower).map pyLower = l.map pyLower := by
  rw [List.map_map]
  apply List.map_congr_left
  intro c _
  exact pyLower_idem c

theorem pyLower_not_unsafe {c : Char} (h : isUnsafeByte c = false) :
    isUnsafeByte (pyLower c) = false := by
  rcases hf : upperLowerTable.find? (fun p => p.1 == c) with _ | p
  · have hc : pyLower c = c := by unfold pyLower; rw [hf]
    rw [hc]; exact h
  · have hc : pyLower c = p.2 := by unfold pyLower; rw [hf]
    have hp := List.mem_of_find?_eq_some hf
    rw [hc]
    clear hf hc h
    fin_cases hp <;> decide

theorem asciiAlpha_not_c0 {c : Char} (h : asciiAlpha c = true) :
    isC0OrSpace c = false := by
  unfold asciiAlpha at h
  rw [List.contains_eq_any_beq, List.any_eq_true] at h
  obtain ⟨x, hx, he⟩ := h
  have hcx : c = x := eq_of_beq he
  subst hcx
  fin_cases hx <;> decide

theorem schemeChar_not_colon {c : Char} (h : schemeChar c = true) : c ≠ ':' := by
  intro he
  subst he
  exact absurd h (by decide)

theorem schemeChar_not_slash {c : Char} (h : schemeChar c = true) : c ≠ '/' := by
  intro he
  subst he
  exact absurd h (by decide)

theorem isSchemeLike_no_colon {l : List Char} (h : isSchemeLike l = true) : ':' ∉ l := by
  intro hm
  rcases l with _ | ⟨c, cs⟩
  · simp at hm
  · unfold isSchemeLike at h
    simp only [Bool.and_eq_true, List.all_eq_true] at h
    exact schemeChar_not_colon (h.2 ':' hm) rfl

theorem splitOnce_spec (d : Char) (l : List Char) :
    (∃ a b, splitFirst d l = some (a, b) ∧ l = a ++ d :: b ∧ d ∉ a) ∨
    (splitFirst d l = none ∧ d ∉ l) := by
  rcases hs : splitFirst d l with _ | ⟨a, b⟩
  · right; exact ⟨rfl, splitFirst_eq_none hs⟩
  · left
    obtain ⟨h1, h2⟩ := splitFirst_eq_some hs
    exact ⟨a, b, rfl, h1, h2⟩

theorem schemeSplit_spec (l : List Char) :
    schemeSplit l = ([], l) ∨
    (∃ pre post, splitFirst ':' l = some (pre, post) ∧ isSchemeLike pre = true ∧
      schemeSplit l = (pre.map pyLower, post) ∧ l = pre ++ ':' :: post ∧ ':' ∉ pre) := by
  rcases hs : splitFirst ':' l with _ | ⟨pre, post⟩
  · left; unfold schemeSplit; rw [hs]
  · by_cases hl : isSchemeLike pre = true
    · right
      obtain ⟨h1, h2⟩ := splitFirst_eq_some hs
      exact ⟨pre, post, rfl, hl, by simp [schemeSplit, hs, hl], h1, h2⟩
    · left
      simp [schemeSplit, hs, hl]

theorem fragSplit_decomp (l : List Char) :
    ((fragSplit l).1 = l ∧ (fragSplit l).2 = [] ∧ '#' ∉ l) ∨
    (l = (fragSplit l).1 ++ '#' :: (fragSplit l).2 ∧ '#' ∉ (fragSplit l).1) := by
  rcases splitOnce_spec '#' l with ⟨a, b, hs, hd, hn⟩ | ⟨hs, hn⟩
  · right
    unfold fragSplit
    rw [hs]
    exact ⟨hd, hn⟩
  · left
    unfold fragSplit
    rw [hs]
    exact ⟨rfl, rfl, hn⟩

theorem querySplit_decomp (l : List Char) :
    ((querySplit l).1 = l ∧ (querySplit l).2 = [] ∧ '?' ∉ l) ∨
    (l = (querySplit l).1 ++ '?' :: (querySplit l).2 ∧ '?' ∉ (querySplit l).1) := by
  rcases splitOnce_spec '?' l with ⟨a, b, hs, hd, hn⟩ | ⟨hs, hn⟩
  · right
    unfold querySplit
    rw [hs]
    exact ⟨hd, hn⟩
  · left
    unfold querySplit
    rw [hs]
    exact ⟨rfl, rfl, hn⟩

theorem fragSplit_fst_mem {l : List Char} {c : Char} (h : c ∈ (fragSplit l).1) : c ∈ l := by
  rcases fragSplit_decomp l with ⟨h1, _, _⟩ | ⟨h1, _⟩
  · rwa [h1] at h
  · rw [h1]; exact List.mem_append_left _ h

theorem fragSplit_snd_mem {l : List Char} {c : Char} (h : c ∈ (fragSplit l).2) : c ∈ l := by
  rcases fragSplit_decomp l with ⟨_, h2, _⟩ | ⟨h1, _⟩
  · rw [h2] at h; simp at h
  · rw [h1]; exact List.mem_append_right _ (by simp [h])

theorem querySplit_fst_mem {l : List Char} {c : Char} (h : c ∈ (querySplit l).1) : c ∈ l := by
  rcases querySplit_decomp l with ⟨h1, _, _⟩ | ⟨h1, _⟩
  · rwa [h1] at h
  · rw [h1]; exact List.mem_append_left _ h

theorem querySplit_snd_mem {l : List Char} {c : Char} (h : c ∈ (querySplit l).2) : c ∈ l := by
  rcases querySplit_decomp l with ⟨_, h2, _⟩ | ⟨h1, _⟩
  · rw [h2] at h; simp at h
  · rw [h1]; exact List.mem_append_right _ (by simp [h])

theorem fragSplit_fst_head (l : List Char) :
    (fragSplit l).1 = [] ∨ (fragSplit l).1.head? = l.head? := by
  rcases fragSplit_decomp l with ⟨h1, _, _⟩ | ⟨h1, _⟩
  · right; rw [h1]
  · rcases hf : (fragSplit l).1 with _ | ⟨c, cs⟩
    · left; rfl
    · right
      rw [h1]
      simp [hf]

theorem querySplit_fst_head (l : List Char) :
    (querySplit l).1 = [] ∨ (querySplit l).1.head? = l.head? := by
  rcases querySplit_decomp l with ⟨h1, _, _⟩ | ⟨h1, _⟩
  · right; rw [h1]
  · rcases hf : (querySplit l).1 with _ | ⟨c, cs⟩
    · left; rfl
    · right
      rw [h1]
      simp [hf]

theorem fragSplit_no_frag {l : List Char} (h : '#' ∉ l) : fragSplit l = (l, []) := by
  unfold fragSplit
  rw [splitFirst_not_mem h]

theorem querySplit_no_query {l : List Char} (h : '?' ∉ l) : querySplit l = (l, []) := by
  unfold querySplit
  rw [splitFirst_not_mem h]

theorem fragSplit_fst_nof (l : List Char) : '#' ∉ (fragSplit l).1 := by
  rcases fragSplit_decomp l with ⟨h1, _, hn⟩ | ⟨_, hn⟩
  · rwa [h1]
  · exact hn

theorem querySplit_fst_noq (l : List Char) : '?' ∉ (querySplit l).1 := by
  rcases querySplit_decomp l with ⟨h1, _, hn⟩ | ⟨_, hn⟩
  · rwa [h1]
  · exact hn

/-- Invariants of every component record produced by urlparse. -/
structure PWF (p : ParsedURL) : Prop where
  netloc_delim : ∀ c ∈ p.netloc.data, netlocDelim c = false
  brackets : p.netloc.data.contains '[' = p.netloc.data.contains ']'
  path_noq : '?' ∉ p.path.data
  path_nof : '#' ∉ p.path.data
  query_nof : '#' ∉ p.query.data
  netloc_path : p.netloc.data ≠ [] → (p.path.data = [] ∨ p.path.data.head? = some '/')
  scheme_ok : p.scheme.data = [] ∨
    (isSchemeLike p.scheme.data = true ∧ p.scheme.data.map pyLower = p.scheme.data)
  scheme_clean : ∀ c ∈ p.scheme.data, isUnsafeByte c = false
  netloc_clean : ∀ c ∈ p.netloc.data, isUnsafeByte c = false
  path_clean : ∀ c ∈ p.path.data, isUnsafeByte c = false
  query_clean : ∀ c ∈ p.query.data, isUnsafeByte c = false

theorem cleanUrl_clean {l : List Char} : ∀ c ∈ cleanUrl l, isUnsafeByte c = false := by
  intro c hc
  unfold cleanUrl at hc
  have := List.of_mem_filter hc
  simpa using this

theorem urlsplit_eq_some_iff {u : String} {p : ParsedURL} :
    urlsplit u = some p ↔ parseCore (cleanUrl u.data) = some p := Iff.rfl

theorem fragSplit_fst_nil_of_hash {l : List Char} (h : l.head? = some '#') :
    (fragSplit l).1 = [] := by
  rcases fragSplit_decomp l with ⟨h1, _, hn⟩ | ⟨h1, hn⟩
  · exfalso
    apply hn
    rcases l with _ | ⟨c, cs⟩
    · simp at h
    · simp at h; subst h; simp
  · rcases hf : (fragSplit l).1 with _ | ⟨c, cs⟩
    · rfl
    · exfalso
      rw [hf] at h1 hn
      rw [h1] at h
      simp at h
      subst h
      simp at hn

theorem querySplit_fst_nil_of_qmark {l : List Char} (h : l.head? = some '?') :
    (querySplit l).1 = [] := by
  rcases querySplit_decomp l with ⟨h1, _, hn⟩ | ⟨h1, hn⟩
  · exfalso
    apply hn
    rcases l with _ | ⟨c, cs⟩
    · simp at h
    · simp at h; subst h; simp
  · rcases hf : (querySplit l).1 with _ | ⟨c, cs⟩
    · rfl
    · exfalso
      rw [hf] at h1 hn
      rw [h1] at h
      simp at h
      subst h
      simp at hn

theorem fragSplit_nil : fragSplit [] = ([], []) := rfl

theorem querySplit_nil : querySplit [] = ([], []) := rfl

theorem parseCore_wf {l : List Char} {p : ParsedURL}
    (hclean : ∀ c ∈ l, isUnsafeByte c = false)
    (h : parseCore l = some p) : PWF p := by
  simp only [parseCore] at h
  split at h
  · exact absurd h (by simp)
  case isFalse hbr =>
    rw [Option.some.injEq] at h
    subst h
    have hm1 : ∀ c ∈ (schemeSplit l).2, c ∈ l := by
      rcases schemeSplit_spec l with hs | ⟨pre, post, _, _, hs, hd, _⟩
      · rw [hs]; intro c hc; exact hc
      · rw [hs]; intro c hc; rw [hd]; simp [hc]
    have hmN : ∀ c ∈ (netSplit (schemeSplit l).2).1, c ∈ l := by
      unfold netSplit
      by_cases h2 : (schemeSplit l).2.take 2 = ['/', '/']
      · rw [if_pos h2]
        intro c hc
        have hc2 := (List.takeWhile_sublist _).subset hc
        exact hm1 c ((List.drop_sublist _ _).subset hc2)
      · rw [if_neg h2]; intro c hc; simp at hc
    have hm2 : ∀ c ∈ (netSplit (schemeSplit l).2).2, c ∈ l := by
      unfold netSplit
      by_cases h2 : (schemeSplit l).2.take 2 = ['/', '/']
      · rw [if_pos h2]
        intro c hc
        have hc2 := (List.dropWhile_sublist _).subset hc
        exact hm1 c ((List.drop_sublist _ _).subset hc2)
      · rw [if_neg h2]; intro c hc; exact hm1 c hc
    have hm3 : ∀ c ∈ (fragSplit (netSplit (schemeSplit l).2).2).1, c ∈ l :=
      fun c hc => hm2 c (fragSplit_fst_mem hc)
    have hmP : ∀ c ∈ (querySplit (fragSplit (netSplit (schemeSplit l).2).2).1).1, c ∈ l :=
      fun c hc => hm3 c (querySplit_fst_mem hc)
    have hmQ : ∀ c ∈ (querySplit (fragSplit (netSplit (schemeSplit l).2).2).1).2, c ∈ l :=
      fun c hc => hm3 c (querySplit_snd_mem hc)
    constructor
    case netloc_delim =>
      intro c hc
      simp only at hc
      unfold netSplit at hc
      by_cases h2 : (schemeSplit l).2.take 2 = ['/', '/']
      · rw [if_pos h2] at hc
        have := List.mem_takeWhile_imp hc
        simpa using this
      · rw [if_neg h2] at hc; simp at hc
    case brackets =>
      simpa using not_ne_iff.mp hbr
    case path_noq =>
      exact querySplit_fst_noq _
    case path_nof =>
      intro hc
      exact fragSplit_fst_nof _ (querySplit_fst_mem hc)
    case query_nof =>
      intro hc
      exact fragSplit_fst_nof _ (querySplit_snd_mem hc)
    case netloc_path =>
      intro hN
      simp only at hN ⊢
      have h2 : (schemeSplit l).2.take 2 = ['/', '/'] := by
        by_contra h2
        apply hN
        unfold netSplit
        rw [if_neg h2]
      have hr2 : (netSplit (schemeSplit l).2).2 =
          ((schemeSplit l).2.drop 2).dropWhile (fun c => !netlocDelim c) := by
        unfold netSplit
        rw [if_pos h2]
      rcases dropWhile_head_or_nil (p := fun c => !netlocDelim c)
          ((schemeSplit l).2.drop 2) with hnil | ⟨c, hhead, hdel⟩
      · left
        rw [hr2, hnil, fragSplit_nil]
        rfl
      · have hdel2 : netlocDelim c = true := by simpa using hdel
        have hcs : c = '/' ∨ c = '?' ∨ c = '#' := by
          unfold netlocDelim at hdel2
          rcases Bool.or_eq_true_iff.mp hdel2 with hx | hx
          · rcases Bool.or_eq_true_iff.mp hx with hy | hy
            · left; exact eq_of_beq hy
            · right; left; exact eq_of_beq hy
          · right; right; exact eq_of_beq hx
      
        have hR2head : (netSplit (schemeSplit l).2).2.head? = some c := by
          rw [hr2]; exact hhead
        rcases hcs with rfl | rfl | rfl
        · -- head of R2 is a slash
          rcases fragSplit_fst_head (netSplit (schemeSplit l).2).2 with h3 | h3
          · left
            rw [h3, querySplit_nil]
          · rcases querySplit_fst_head (fragSplit (netSplit (schemeSplit l).2).2).1
                with h4 | h4
            · left; exact h4
            · right
              rw [h4, h3, hR2head]
        · -- head of R2 is a question mark
          rcases fragSplit_fst_head (netSplit (schemeSplit l).2).2 with h3 | h3
          · left
            rw [h3, querySplit_nil]
          · left
            apply querySplit_fst_nil_of_qmark
            rw [h3, hR2head]
        · -- head of R2 is a hash
          left
          rw [fragSplit_fst_nil_of_hash hR2head, querySplit_nil]
    case scheme_ok =>
      simp only
      rcases schemeSplit_spec l with hs | ⟨pre, post, _, hpre, hs, _, _⟩
      · left; rw [hs]
      · right
        rw [hs]
        exact ⟨isSchemeLike_map_pyLower hpre, map_pyLower_idem pre⟩
    case scheme_clean =>
      intro c hc
      simp only at hc
      rcases schemeSplit_spec l with hs | ⟨pre, post, _, _, hs, hd, _⟩
      · rw [hs] at hc; simp at hc
      · rw [hs] at hc
        simp only [List.mem_map] at hc
        obtain ⟨y, hy, rfl⟩ := hc
        apply pyLower_not_unsafe
        apply hclean
        rw [hd]
        simp [hy]
    case netloc_clean =>
      intro c hc
      exact hclean c (hmN c hc)
    case path_clean =>
      intro c hc
      exact hclean c (hmP c hc)
    case query_clean =>
      intro c hc
      exact hclean c (hmQ c hc)

theorem clean_no_op {W : List Char} (hbytesok : ∀ c ∈ W, isUnsafeByte c = false)
    (hhead : ∀ c, W.head? = some c → isC0OrSpace c = false) :
    cleanUrl W = W := by
  unfold cleanUrl
  have hdw : W.dropWhile isC0OrSpace = W := by
    rcases W with _ | ⟨c, cs⟩
    · rfl
    · have := hhead c rfl
      simp [List.dropWhile, this]
  rw [hdw]
  apply List.filter_eq_self.mpr
  intro c hc
  simp [hbytesok c hc]

theorem schemeSplit_of_head_slash {l : List Char} (h : l.head? = some '/') :
    schemeSplit l = ([], l) := by
  rcases schemeSplit_spec l with hs | ⟨pre, post, _, hpre, hs, hd, hnc⟩
  · exact hs
  · exfalso
    rcases pre with _ | ⟨c, cs⟩
    · simp [isSchemeLike] at hpre
    · rw [hd] at h
      simp at h
      subst h
      unfold isSchemeLike at hpre
      simp only [Bool.and_eq_true] at hpre
      exact absurd hpre.1 (by decide)

theorem schemeSplit_of_scheme {S rest : List Char}
    (hpre : isSchemeLike S = true) (hlow : S.map pyLower = S) :
    schemeSplit (S ++ ':' :: rest) = (S, rest) := by
  unfold schemeSplit
  rw [splitFirst_append rest (isSchemeLike_no_colon hpre)]
  simp [hpre, hlow]

theorem parse_unsplitL (S N P Q : List Char)
    (hn : N ≠ [])
    (hnd : ∀ c ∈ N, netlocDelim c = false)
    (hbr : N.contains '[' = N.contains ']')
    (hph : P.head? = some '/')
    (hpq : '?' ∉ P) (hpf : '#' ∉ P) (hqf : '#' ∉ Q)
    (hs : S = [] ∨ (isSchemeLike S = true ∧ S.map pyLower = S))
    (hscl : ∀ c ∈ S, isUnsafeByte c = false)
    (hncl : ∀ c ∈ N, isUnsafeByte c = false)
    (hpcl : ∀ c ∈ P, isUnsafeByte c = false)
    (hqcl : ∀ c ∈ Q, isUnsafeByte c = false) :
    parseCore (cleanUrl (urlunsplitL S N P Q [])) = some ⟨⟨S⟩, ⟨N⟩, ⟨P⟩, ⟨Q⟩, ⟨[]⟩⟩ := by
  have hP_ne : P ≠ [] := by
    rcases P with _ | _
    · simp at hph
    · simp
  have hW : urlunsplitL S N P Q [] =
      (if S ≠ [] then S ++ [':'] else []) ++
      ('/' :: '/' :: (N ++ P) ++
        (if Q ≠ [] then '?' :: Q else [])) := by
    unfold urlunsplitL
    rw [if_pos (Or.inl hn)]
    have hins : ¬(P ≠ [] ∧ P.head? ≠ some '/') := fun hx => hx.2 hph
    rw [if_neg hins]
    by_cases hS : S ≠ [] <;> by_cases hQ : Q ≠ [] <;>
      simp [hS, hQ, List.append_assoc]
  -- the quoted tail after an optional scheme prefix
  have hqmem : ∀ c ∈ (if Q ≠ [] then '?' :: Q else []), c = '?' ∨ c ∈ Q := by
    by_cases hQ : Q ≠ []
    · rw [if_pos hQ]
      intro c hc
      rcases hc with _ | hc
      · left; rfl
      · right; assumption
    · rw [if_neg hQ]
      intro c hc
      simp at hc
  have hrest_mem : ∀ c ∈ '/' :: '/' :: (N ++ P) ++ (if Q ≠ [] then '?' :: Q else []),
      isUnsafeByte c = false := by
    intro c hc
    simp only [List.cons_append, List.mem_cons, List.mem_append] at hc
    rcases hc with rfl | rfl | (hc | hc) | hc
    · decide
    · decide
    · exact hncl c hc
    · exact hpcl c hc
    · rcases hqmem c hc with rfl | hc
      · decide
      · exact hqcl c hc
  have hclean : cleanUrl (urlunsplitL S N P Q []) = urlunsplitL S N P Q [] := by
    apply clean_no_op
    · intro c hc
      rw [hW] at hc
      rcases List.mem_append.mp hc with hc | hc
      · by_cases hS : S ≠ []
        · rw [if_pos hS] at hc
          rcases List.mem_append.mp hc with hc | hc
          · exact hscl c hc
          · simp at hc; subst hc; decide
        · rw [if_neg hS] at hc; simp at hc
      · exact hrest_mem c hc
    · intro c hc
      rw [hW] at hc
      rcases hs with rfl | ⟨hpre, _⟩
      · simp at hc
        subst hc
        decide
      · rcases S with _ | ⟨s0, ss⟩
        · simp [isSchemeLike] at hpre
        · simp at hc
          subst hc
          unfold isSchemeLike at hpre
          simp only [Bool.and_eq_true] at hpre
          exact asciiAlpha_not_c0 hpre.1
  rw [hclean, hW]
  -- scheme phase
  have hsch : schemeSplit ((if S ≠ [] then S ++ [':'] else []) ++
      ('/' :: '/' :: (N ++ P) ++ (if Q ≠ [] then '?' :: Q else []))) =
      (S, '/' :: '/' :: (N ++ P) ++ (if Q ≠ [] then '?' :: Q else [])) := by
    rcases hs with rfl | ⟨hpre, hlow⟩
    · rw [if_neg (by simp)]
      rw [List.nil_append]
      exact schemeSplit_of_head_slash (by simp)
    · have hS : S ≠ [] := by
        rcases S with _ | _
        · simp [isSchemeLike] at hpre
        · simp
      rw [if_pos hS, List.append_assoc, List.singleton_append]
      exact schemeSplit_of_scheme hpre hlow
  -- net phase
  have hnet : netSplit ('/' :: '/' :: (N ++ P) ++ (if Q ≠ [] then '?' :: Q else [])) =
      (N, P ++ (if Q ≠ [] then '?' :: Q else [])) := by
    have hsplit := takeWhile_append_stop (p := fun c => !netlocDelim c)
      (N := N) (X := P ++ (if Q ≠ [] then '?' :: Q else []))
      (fun c hc => by simp [hnd c hc])
      (by
        right
        rcases P with _ | ⟨p0, ps⟩
        · simp at hph
        · simp at hph
          subst hph
          exact ⟨'/', by simp, by decide⟩)
    unfold netSplit
    rw [List.cons_append, List.cons_append]
    rw [if_pos (show List.take 2 ('/' :: '/' :: ((N ++ P) ++
      (if Q ≠ [] then '?' :: Q else []))) = ['/', '/'] from rfl)]
    simp only [List.drop_succ_cons, List.drop_zero]
    rw [List.append_assoc]
    rw [hsplit.1, hsplit.2]
  -- fragment phase
  have hfrg : fragSplit (P ++ (if Q ≠ [] then '?' :: Q else [])) =
      (P ++ (if Q ≠ [] then '?' :: Q else []), []) := by
    apply fragSplit_no_frag
    intro hc
    rcases List.mem_append.mp hc with hc | hc
    · exact hpf hc
    · rcases hqmem _ hc with he | hc
      · exact absurd he (by decide)
      · exact hqf hc
  -- query phase
  have hqry : querySplit (P ++ (if Q ≠ [] then '?' :: Q else [])) = (P, Q) := by
    by_cases hQ : Q ≠ []
    · rw [if_pos hQ]
      unfold querySplit
      rw [splitFirst_append Q hpq]
    · rw [if_neg hQ, List.append_nil]
      rw [not_not] at hQ
      rw [querySplit_no_query hpq, hQ]
  simp only [parseCore, hsch, hnet, hfrg, hqry]
  rw [if_neg (not_ne_iff.mpr hbr)]

/-- String eta: rebuilding a string from its characters is the
identity. -/
theorem stringEta (s : String) : (⟨s.data⟩ : String) = s := rfl

/-- Structure of the params split: either it leaves the url whole with
empty params, or it cuts the url at a semicolon. -/
theorem splitparams_decomp (l : List Char) :
    splitparams l = (l, []) ∨
      l = (splitparams l).1 ++ ';' :: (splitparams l).2 := by
  rcases h1 : splitFirst '/' l.reverse with _ | ⟨rB, rA⟩
  · rcases h2 : splitFirst ';' l with _ | ⟨c, d⟩
    · left
      simp only [splitparams, h1, h2]
    · right
      have hs : splitparams l = (c, d) := by simp only [splitparams, h1, h2]
      obtain ⟨hl, _⟩ := splitFirst_eq_some h2
      rw [hs]
      exact hl
  · rcases h2 : splitFirst ';' rB.reverse with _ | ⟨c, d⟩
    · left
      simp only [splitparams, h1, h2]
    · right
      have hs : splitparams l = (rA.reverse ++ '/' :: c, d) := by
        simp only [splitparams, h1, h2]
      obtain ⟨hl, _⟩ := splitFirst_eq_some h1
      obtain ⟨hB, _⟩ := splitFirst_eq_some h2
      have hl2 : l = rA.reverse ++ '/' :: rB.reverse := by
        have h3 := congrArg List.reverse hl
        simpa [List.reverse_append] using h3
      rw [hs, hl2, hB]
      simp

theorem withParams_scheme (p : ParsedURL) : (withParams p).scheme = p.scheme := by
  unfold withParams
  split <;> rfl

theorem withParams_netloc (p : ParsedURL) : (withParams p).netloc = p.netloc := by
  unfold withParams
  split <;> rfl

theorem withParams_query (p : ParsedURL) : (withParams p).query = p.query := by
  unfold withParams
  split <;> rfl

theorem withParams_fragment (p : ParsedURL) :
    (withParams p).fragment = p.fragment := by
  unfold withParams
  split <;> rfl

/-- The params step either keeps the split path whole with empty params
or cuts it at a semicolon. -/
theorem withParams_path_decomp (p : ParsedURL) :
    ((withParams p).path.data = p.path.data ∧ (withParams p).params.data = []) ∨
    p.path.data = (withParams p).path.data ++ ';' :: (withParams p).params.data := by
  unfold withParams
  split
  · rcases splitparams_decomp p.path.data with h | h
    · left
      constructor <;> simp [h]
    · right
      simpa using h
  · left
    exact ⟨rfl, rfl⟩

/-- On an input that parses with a nonempty host, the normalizer output
splits back to the same scheme, netloc and query, an empty fragment,
and a path of the slash-collapsed params-less path with a nonempty
params component reattached. -/
theorem urlsplit_normalize {u : String} {r : ParseResult}
    (h : urlparse u = some r) (hn : r.netloc ≠ "") :
    urlsplit (normalize_url u) =
      some ⟨r.scheme, r.netloc,
        ⟨normPath r.path.data ++
          (if r.params.data ≠ [] then ';' :: r.params.data else [])⟩,
        r.query, ""⟩ := by
  obtain ⟨p, hp, hwp⟩ : ∃ p, urlsplit u = some p ∧ withParams p = r := by
    unfold urlparse at h
    rcases hs : urlsplit u with _ | p
    · rw [hs] at h
      simp at h
    · rw [hs] at h
      exact ⟨p, rfl, by simpa using h⟩
  have hw := parseCore_wf (cleanUrl_clean) hp
  have hsch : r.scheme = p.scheme := by rw [← hwp]; exact withParams_scheme p
  have hnet : r.netloc = p.netloc := by rw [← hwp]; exact withParams_netloc p
  have hqry : r.query = p.query := by rw [← hwp]; exact withParams_query p
  have hdec := withParams_path_decomp p
  rw [hwp] at hdec
  have hnl : p.netloc.data ≠ [] := by
    intro hx
    apply hn
    rw [hnet]
    have := congrArg (fun l => (⟨l⟩ : String)) hx
    simpa [stringEta] using this
  have hmem1 : ∀ c ∈ r.path.data, c ∈ p.path.data := by
    rcases hdec with ⟨h1, _⟩ | h1
    · intro c hc
      rw [h1] at hc
      exact hc
    · intro c hc
      rw [h1]
      simp [hc]
  have hmem2 : ∀ c ∈ r.params.data, c ∈ p.path.data := by
    rcases hdec with ⟨_, h2⟩ | h1
    · intro c hc
      rw [h2] at hc
      simp at hc
    · intro c hc
      rw [h1]
      simp [hc]
  have hhead : r.path.data = [] ∨ r.path.data.head? = some '/' := by
    rcases hw.netloc_path hnl with hpe | hph
    · rcases hdec with ⟨h1, _⟩ | h1
      · left
        rw [h1, hpe]
      · rw [hpe] at h1
        exact absurd h1.symm (by simp)
    · rcases hdec with ⟨h1, _⟩ | h1
      · right
        rw [h1]
        exact hph
      · rcases hrp : r.path.data with _ | ⟨c, cs⟩
        · left
          rfl
        · right
          rw [h1, hrp] at hph
          simp at hph
          simp [hph]
  -- the combined path the normalizer rebuilds
  have hPmem : ∀ c ∈ normPath r.path.data ++
      (if r.params.data ≠ [] then ';' :: r.params.data else []),
      c ∈ p.path.data ∨ c = '/' ∨ c = ';' := by
    intro c hc
    rcases List.mem_append.mp hc with hc | hc
    · rcases mem_normPath hc with hc | hc
      · exact Or.inl (hmem1 c hc)
      · exact Or.inr (Or.inl hc)
    · by_cases hne : r.params.data = []
      · rw [if_neg (by simpa using hne)] at hc
        simp at hc
      · rw [if_pos (by simpa using hne)] at hc
        rcases List.mem_cons.mp hc with hc | hc
        · exact Or.inr (Or.inr hc)
        · exact Or.inl (hmem2 c hc)
  have hPhead : (normPath r.path.data ++
      (if r.params.data ≠ [] then ';' :: r.params.data else [])).head? =
      some '/' := by
    rcases hnp : normPath r.path.data with _ | ⟨c, cs⟩
    · exact absurd hnp (normPath_ne_nil r.path.data)
    · have h2 := normPath_head hhead
      rw [hnp] at h2
      simpa using h2
  have hnorm : normalize_url u =
      urlunparse { r with path := ⟨normPath r.path.data⟩, fragment := "" } := by
    unfold normalize_url
    rw [h]
  have hPP : paramsPath { r with path := ⟨normPath r.path.data⟩, fragment := "" } =
      normPath r.path.data ++
        (if r.params.data ≠ [] then ';' :: r.params.data else []) := by
    unfold paramsPath
    by_cases hc : r.params.data = [] <;> simp [hc]
  have hkey := parse_unsplitL p.scheme.data p.netloc.data
    (normPath r.path.data ++
      (if r.params.data ≠ [] then ';' :: r.params.data else []))
    p.query.data
    hnl hw.netloc_delim hw.brackets
    hPhead
    (fun hc => by
      rcases hPmem _ hc with hc | hc | hc
      · exact hw.path_noq hc
      · exact absurd hc (by decide)
      · exact absurd hc (by decide))
    (fun hc => by
      rcases hPmem _ hc with hc | hc | hc
      · exact hw.path_nof hc
      · exact absurd hc (by decide)
      · exact absurd hc (by decide))
    hw.query_nof
    hw.scheme_ok
    hw.scheme_clean
    hw.netloc_clean
    (fun c hc => by
      rcases hPmem c hc with hc | rfl | rfl
      · exact hw.path_clean c hc
      · decide
      · decide)
    hw.query_clean
  have hnu : (normalize_url u).data =
      urlunsplitL p.scheme.data p.netloc.data
        (normPath r.path.data ++
          (if r.params.data ≠ [] then ';' :: r.params.data else []))
        p.query.data [] := by
    rw [hnorm]
    unfold urlunparse urlunsplit
    rw [hPP, hsch, hnet, hqry]
  show parseCore (cleanUrl (normalize_url u).data) = _
  rw [hnu, hkey, hsch, hnet, hqry]

/-- urlparse of the normalizer output: the params split rerun on the
rebuilt path. -/
theorem urlparse_normalize {u : String} {r : ParseResult}
    (h : urlparse u = some r) (hn : r.netloc ≠ "") :
    urlparse (normalize_url u) =
      some (withParams ⟨r.scheme, r.netloc,
        ⟨normPath r.path.data ++
          (if r.params.data ≠ [] then ';' :: r.params.data else [])⟩,
        r.query, ""⟩) := by
  unfold urlparse
  rw [urlsplit_normalize h hn]
  rfl

/-- Component preservation of the normalizer on a parseable input with
a host: scheme, netloc and query are kept verbatim and the fragment is
removed. -/
theorem urlparse_normalize_components {u : String} {r : ParseResult}
    (h : urlparse u = some r) (hn : r.netloc ≠ "") :
    ∃ r2, urlparse (normalize_url u) = some r2 ∧ r2.scheme = r.scheme ∧
      r2.netloc = r.netloc ∧ r2.query = r.query ∧ r2.fragment = "" :=
  ⟨_, urlparse_normalize h hn, withParams_scheme _, withParams_netloc _,
    withParams_query _, withParams_fragment _⟩

/-! ## The regular expression engine model

Model of the fragment of Python re that the program exercises: literal
characters, escaped punctuation, the classes backslash-d, backslash-w and
backslash-s, the dot, grouping, alternation, the postfix operators for
star, plus and optional, and the dollar end anchor.  A pattern outside
this fragment fails to compile in the model (parseRegex returns none) and
is treated like an invalid regex.  re.search is modelled as a match of
the parsed expression at some start position. -/

inductive Rgx where
  | eps
  | ch (c : Char)
  | anyc
  | digit
  | word
  | space
  | seq (a b : Rgx)
  | alt (a b : Rgx)
  | star (a : Rgx)
  | endAnchor
deriving Repr, DecidableEq

/-- One matching step: the list of possible remaining suffixes after the
expression consumes a prefix of the input.  The fuel bounds the recursion
depth; every recursive call shrinks the expression or the input, so a
fuel of expression size plus input length suffices. -/
def matchSufF : Nat → Rgx → List Char → List (List Char)
  | 0, _, _ => []
  | fuel + 1, r, s =>
    match r with
    | .eps => [s]
    | .ch c =>
      match s with
      | [] => []
      | x :: xs => if x == c then [xs] else []
    | .anyc =>
      match s with
      | [] => []
      | x :: xs => if x == '\n' then [] else [xs]
    | .digit =>
      match s with
      | [] => []
      | x :: xs => if x.isDigit then [xs] else []
    | .word =>
      match s with
      | [] => []
      | x :: xs => if x.isAlphanum || x == '_' then [xs] else []
    | .space =>
      match s with
      | [] => []
      | x :: xs => if x.isWhitespace then [xs] else []
    | .seq a b => (matchSufF fuel a s).flatMap (fun t => matchSufF fuel b t)
    | .alt a b => matchSufF fuel a s ++ matchSufF fuel b s
    | .star a =>
      s :: (matchSufF fuel a s).flatMap
        (fun t => if t.length < s.length then matchSufF fuel (.star a) t else [])
    | .endAnchor => if s.isEmpty then [[]] else []

/-- Structural size of an expression, an upper bound contributor to the
matching recursion depth. -/
def rgxSize : Rgx → Nat
  | .seq a b => rgxSize a + rgxSize b + 1
  | .alt a b => rgxSize a + rgxSize b + 1
  | .star a => rgxSize a + 1
  | _ => 1

/-- Does the expression match some prefix of the input? -/
def matchHere (r : Rgx) (s : List Char) : Bool :=
  !(matchSufF (rgxSize r + s.length + 1) r s).isEmpty

/-- Model of re.search as a boolean: the expression matches at some start
position of the input. -/
def reSearch (r : Rgx) (s : List Char) : Bool :=
  s.tails.any (fun t => matchHere r t)

/-- Recursive descent over the pattern text; the second argument selects
the grammar level (0 alternation, 1 concatenation, 2 repeated atom). -/
def pR : Nat → Nat → List Char → Option (Rgx × List Char)
  | 0, _, _ => none
  | fuel + 1, 0, s =>
    match pR fuel 1 s with
    | none => none
    | some (r, rest) =>
      match rest with
      | '|' :: rest2 =>
        match pR fuel 0 rest2 with
        | some (r2, rest3) => some (.alt r r2, rest3)
        | none => none
      | _ => some (r, rest)
  | fuel + 1, 1, s =>
    match s with
    | [] => some (.eps, [])
    | ')' :: _ => some (.eps, s)
    | '|' :: _ => some (.eps, s)
    | _ =>
      match pR fuel 2 s with
      | none => none
      | some (r, rest) =>
        match pR fuel 1 rest with
        | some (r2, rest2) => some (.seq r r2, rest2)
        | none => none
  | fuel + 1, _, s =>
    let atom : Option (Rgx × List Char) :=
      match s with
      | [] => none
      | '(' :: rest =>
        match pR fuel 0 rest with
        | some (r, ')' :: rest2) => some (r, rest2)
        | _ => none
      | '.' :: rest => some (.anyc, rest)
      | '$' :: rest => some (.endAnchor, rest)
      | '\\' :: c :: rest =>
        if c == 'd' then some (.digit, rest)
        else if c == 'w' then some (.word, rest)
        else if c == 's' then some (.space, rest)
        else if c.isAlpha || c.isDigit then none
        else some (.ch c, rest)
      | c :: rest =>
        if c == '*' || c == '+' || c == '?' || c == '|' || c == ')' ||
            c == '[' || c == ']' || c == '{' || c == '}' || c == '^' ||
            c == '\\' then none
        else some (.ch c, rest)
    match atom with
    | none => none
    | some (r, rest) =>
      match rest with
      | '*' :: rest2 => some (.star r, rest2)
      | '+' :: rest2 => some (.seq r (.star r), rest2)
      | '?' :: rest2 => some (.alt r .eps, rest2)
      | _ => some (r, rest)

/-- Model of re.compile restricted to the engine fragment: none plays the
role of re.error (and of syntax outside the fragment). -/
def parseRegex (pat : String) : Option Rgx :=
  match pR (4 * pat.data.length + 4) 0 pat.data with
  | some (r, []) => some r
  | _ => none

/-- Search a subject with a pattern text; an uncompilable pattern finds
nothing. -/
def reSearchStr (pat s : String) : Bool :=
  match parseRegex pat with
  | some r => reSearch r s.data
  | none => false

/-! ## The DomainCrawler filter tables and predicates (from the source) -/

def EXCLUDED_EXTENSIONS : List String :=
  [".pdf", ".doc", ".docx", ".xls", ".xlsx", ".ppt", ".pptx",
   ".zip", ".rar", ".tar", ".gz", ".7z",
   ".jpg", ".jpeg", ".png", ".gif", ".bmp", ".svg", ".ico", ".webp",
   ".mp3", ".mp4", ".avi", ".mov", ".wmv", ".flv", ".wav",
   ".css", ".js", ".json", ".xml", ".rss", ".atom",
   ".woff", ".woff2", ".ttf", ".eot", ".otf",
   ".exe", ".dmg", ".msi", ".apk"]

def EXCLUDED_PATH_PATTERNS : List String :=
  ["/wp-content/", "/wp-includes/", "/wp-admin/",
   "/assets/", "/static/", "/images/", "/img/",
   "/fonts/", "/css/", "/js/",
   "#", "javascript:", "mailto:", "tel:",
   "/cdn-cgi/", "/feed/", "/rss/",
   "/login", "/logout", "/signup", "/register",
   "/cart", "/checkout", "/account",
   "/search", "/tag/", "/category/",
   "/page/\\d+", "\\?replytocom=",
   "/xmlrpc\\.php", "/wp-json/",
   "/privacy", "/terms", "/cookie", "/legal",
   "/disclaimer", "/imprint", "/impressum",
   "/sitemap", "\\.xml$"]

/-- The extension test of the filter: the lowercased params-less path
of urlparse ends in an excluded extension. -/
def extensionExcluded (p : ParseResult) : Bool :=
  EXCLUDED_EXTENSIONS.any (fun ext => endsWithS (lowerS p.path) ext)

/-- The path pattern test of the filter: some excluded pattern matches
the lowercased full URL. -/
def pathPatternExcluded (url : String) : Bool :=
  EXCLUDED_PATH_PATTERNS.any (fun pat => reSearchStr pat (lowerS url))

/-- netloc.lower().replace, the domain canonicalization the source
repeats at every comparison point. -/
def domainOfNetloc (netloc : String) : String :=
  strReplace (lowerS netloc) "www." ""

/-- DomainCrawler link filter: same domain as the base and not excluded
by extension or path pattern; a parse failure is out of scope. -/
def is_valid_url (url base_domain : String) : Bool :=
  match urlparse url with
  | none => false
  | some p =>
    if p.scheme = "" ∨ p.netloc = "" then false
    else if domainOfNetloc p.netloc ≠ base_domain then false
    else if extensionExcluded p then false
    else if pathPatternExcluded url then false
    else true

/-! ## URLMatcher (from the source)

The coverage classification utilities.  The input lists model
after_save_pageurls restricted to its string entries; the source skips
non-string entries with an isinstance test, so a list of strings loses no
behavior. -/

/-- URLMatcher.extract_domains_from_urls.  The function calls urlparse
without a try block, so an entry whose netloc fails to parse raises out
of it: none models that uncaught error. -/
def extract_domains_from_urls : List String → Option (List String)
  | [] => some []
  | u :: us =>
    if startsWithS u "http" then
      match urlparse u with
      | none => none
      | some p => (extract_domains_from_urls us).map (fun ds => domainOfNetloc p.netloc :: ds)
    else extract_domains_from_urls us

/-- URLMatcher.extract_http_urls. -/
def extract_http_urls (urls : List String) : List String :=
  urls.filterMap (fun u => if startsWithS (pyStrip u) "http" then some (pyStrip u) else none)

/-- Direct model of re.match of the anchored, case-insensitive
alternation of the four rule prefixes followed by a colon: the first two
characters lowercase to one of the prefixes and the third is a colon. -/
def regexPrefixOk (s : String) : Bool :=
  match s.data with
  | c1 :: c2 :: c3 :: _ =>
    ((pyLower c1 == 'e' && pyLower c2 == 'v') ||
     (pyLower c1 == 'c' && pyLower c2 == 'p') ||
     (pyLower c1 == 'd' && pyLower c2 == 'f') ||
     (pyLower c1 == 'i' && pyLower c2 == 'f')) && c3 == ':'
  | _ => false

/-- URLMatcher.extract_regex_patterns. -/
def extract_regex_patterns (urls : List String) : List String :=
  urls.filterMap (fun u => if regexPrefixOk (pyStrip u) then some (pyStrip u) else none)

/-- The rule body: group 2 of the prefix match, everything after the
colon up to a newline (the dot of the source pattern stops there). -/
def ruleBody (s : String) : Option String :=
  if regexPrefixOk s then some ⟨(s.data.drop 3).takeWhile (fun c => c != '\n')⟩ else none

/-- URLMatcher.url_matches_exact: plain equality of the slash-stripped
forms, or equality after collapsing a www host marker on both sides. -/
def url_matches_exact (discovered_url : String) (after_urls : List String) : Bool :=
  after_urls.any (fun after_url =>
    if !startsWithS after_url "http" then false
    else
      let norm_discovered := rstripSlash discovered_url
      let norm_after := rstripSlash (pyStrip after_url)
      norm_discovered == norm_after ||
        strReplace norm_discovered "://www." "://" ==
          strReplace norm_after "://www." "://")

/-- The rule loop of url_matches_regex_pattern: try each pattern, skip a
missing or empty body and an uncompilable regex, return the first
pattern whose body matches the path or the full URL. -/
def regexRuleScan (discovered_url : String) (url_path : String) :
    List String → Option String
  | [] => none
  | pat :: rest =>
    match ruleBody pat with
    | none => regexRuleScan discovered_url url_path rest
    | some body =>
      if body == "" then regexRuleScan discovered_url url_path rest
      else
        match parseRegex body with
        | none => regexRuleScan discovered_url url_path rest
        | some r =>
          if reSearch r url_path.data || reSearch r discovered_url.data then some pat
          else regexRuleScan discovered_url url_path rest

/-- URLMatcher.url_matches_regex_pattern.  The outer none models the
uncaught ValueError of the unprotected urlparse call on the discovered
URL; the inner option is the return value of the source. -/
def url_matches_regex_pattern (discovered_url : String)
    (regex_patterns : List String) : Option (Option String) :=
  match urlparse discovered_url with
  | none => none
  | some parsed => some (regexRuleScan discovered_url parsed.path regex_patterns)

/-- URLMatcher.classify_discovered_url. -/
def classify_discovered_url (discovered_url : String)
    (after_urls regex_patterns : List String) : Option (Bool × String) :=
  if url_matches_exact discovered_url after_urls then some (true, "Already added")
  else
    match url_matches_regex_pattern discovered_url regex_patterns with
    | none => none
    | some (some pat) =>
      some (true, "Sub page - scraped with ev/cp regex (" ++ pat ++ ")")
    | some none => some (false, "Potentially missing")

/-! ## DomainCrawler.crawl (from the source)

State of one crawl run.  The source keeps visited and discovered as
sets; the model keeps them as lists inserted without duplication, and
instruments each discovered entry with the depth at which it was first
recorded (seed entries at zero, a link found on a page fetched at depth
d at d plus one) and the run with the ordered log of fetched pages.
These ghost components exist only to state depth and ordering
properties; the key set of discovered evolves exactly as the source
set does. -/

structure CrawlConfig where
  maxDepth : Nat := 10
  maxPages : Nat := 500
deriving Repr, DecidableEq

structure CrawlState where
  visited : List String
  discovered : List (String × Nat)
  fetchLog : List (String × Nat)
  pagesCrawled : Nat
deriving Repr, DecidableEq

/-- Set membership in the instrumented discovered map. -/
def discHas (disc : List (String × Nat)) (u : String) : Bool :=
  disc.any (fun e => e.1 == u)

/-- The link loop of one fetched page: normalize and filter every
extracted link, record accepted links in discovered (first write wins)
and emit the next level candidates for the queue. -/
def processLinks (cfg : CrawlConfig) (base_domain : String) (visited : List String)
    (depth : Nat) : List String → List (String × Nat) →
      List (String × Nat) × List (String × Nat)
  | [], disc => (disc, [])
  | link :: rest, disc =>
    let normalized := normalize_url link
    if is_valid_url normalized base_domain = true then
      let disc2 := if discHas disc normalized = true then disc
        else disc ++ [(normalized, depth + 1)]
      let enq := if visited.contains normalized = false ∧ depth + 1 ≤ cfg.maxDepth then
          [(normalized, depth + 1)] else []
      let res := processLinks cfg base_domain visited depth rest disc2
      (res.1, enq ++ res.2)
    else processLinks cfg base_domain visited depth rest disc

/-- One fetch of the crawl loop: claim the page in visited, charge the
budget, log the fetch, then run the link loop on the links the fetch
oracle returns for the page. -/
def fetchStep (cfg : CrawlConfig) (base_domain : String) (links : List String)
    (current : String) (depth : Nat) (st : CrawlState) :
    CrawlState × List (String × Nat) :=
  let pr := processLinks cfg base_domain (current :: st.visited) depth links st.discovered
  (⟨current :: st.visited, pr.1, st.fetchLog ++ [(current, depth)],
    st.pagesCrawled + 1⟩, pr.2)

/-- The while loop of DomainCrawler.crawl: pop the queue while the page
budget is open; skip visited entries and entries beyond the depth bound;
otherwise fetch and append the accepted links to the queue. -/
def crawlLoop (cfg : CrawlConfig) (fetch : String → List String) (base_domain : String) :
    List (String × Nat) → CrawlState → CrawlState
  | [], st => st
  | (current, depth) :: rest, st =>
    if st.pagesCrawled < cfg.maxPages then
      if st.visited.contains current = true then
        crawlLoop cfg fetch base_domain rest st
      else if cfg.maxDepth < depth then
        crawlLoop cfg fetch base_domain rest st
      else
        crawlLoop cfg fetch base_domain
          (rest ++ (fetchStep cfg base_domain (fetch current) current depth st).2)
          (fetchStep cfg base_domain (fetch current) current depth st).1
    else st
termination_by q st => (cfg.maxPages - st.pagesCrawled, q.length)
decreasing_by
  · apply Prod.Lex.right
    simp
  · apply Prod.Lex.right
    simp
  · apply Prod.Lex.left
    simp only [fetchStep]
    omega

def emptyCrawlState : CrawlState := ⟨[], [], [], 0⟩

/-- The seeding loop of crawl: every http-prefixed start URL enters the
queue normalized at depth zero, bypassing the link filter. -/
def seedQueue (start_urls : List String) : List (String × Nat) :=
  start_urls.filterMap
    (fun u => if startsWithS u "http" = true then some (normalize_url u, 0) else none)

/-- The initial discovered set: the seed queue inserted in order without
duplicates (set semantics with the instrumented first-write depth). -/
def seedDisc (start_urls : List String) : List (String × Nat) :=
  (seedQueue start_urls).foldl
    (fun acc e => if discHas acc e.1 = true then acc else acc ++ [e]) []

/-- DomainCrawler.crawl.  The fetch oracle stands for the HTTP client
and anchor extractor collaborators: for a page URL it yields the
resolved absolute href strings of the anchors of that page, with every
failure case (non-200, non-HTML, network error) yielding the empty
list exactly as the source degrades those cases.  The result is none
when the base domain computation raises out of crawl (first http seed
with an unparseable netloc); otherwise the final crawl state. -/
def crawl (cfg : CrawlConfig) (fetch : String → List String)
    (start_urls : List String) : Option CrawlState :=
  if start_urls = [] then some emptyCrawlState
  else
    match start_urls.find? (fun u => startsWithS u "http") with
    | none => some emptyCrawlState
    | some u0 =>
      match urlparse u0 with
      | none => none
      | some p0 =>
        if domainOfNetloc p0.netloc = "" then some emptyCrawlState
        else
          some (crawlLoop cfg fetch (domainOfNetloc p0.netloc) (seedQueue start_urls)
            ⟨[], seedDisc start_urls, [], 0⟩)

/-- The URL set the crawl returns: the keys of the instrumented
discovered map. -/
def discoveredUrls (st : CrawlState) : List String := st.discovered.map Prod.fst

/-- The www-collapsed domain of a URL, when it parses. -/
def urlDomain (u : String) : Option String :=
  (urlparse u).map (fun p => domainOfNetloc p.netloc)

/-- Fueled twin of crawlLoop with identical step logic, used to evaluate
concrete runs inside the kernel; none signals exhausted fuel. -/
def crawlLoopF (cfg : CrawlConfig) (fetch : String → List String) (base_domain : String) :
    Nat → List (String × Nat) → CrawlState → Option CrawlState
  | _, [], st => some st
  | 0, _ :: _, st => if st.pagesCrawled < cfg.maxPages then none else some st
  | fuel + 1, (current, depth) :: rest, st =>
    if st.pagesCrawled < cfg.maxPages then
      if st.visited.contains current = true then
        crawlLoopF cfg fetch base_domain fuel rest st
      else if cfg.maxDepth < depth then
        crawlLoopF cfg fetch base_domain fuel rest st
      else
        crawlLoopF cfg fetch base_domain fuel
          (rest ++ (fetchStep cfg base_domain (fetch current) current depth st).2)
          (fetchStep cfg base_domain (fetch current) current depth st).1
    else some st

theorem crawlLoop_nil (cfg : CrawlConfig) (fetch : String → List String)
    (base : String) (st : CrawlState) : crawlLoop cfg fetch base [] st = st := by
  rw [crawlLoop]

theorem crawlLoop_cons (cfg : CrawlConfig) (fetch : String → List String)
    (base current : String) (depth : Nat) (rest : List (String × Nat))
    (st : CrawlState) :
    crawlLoop cfg fetch base ((current, depth) :: rest) st =
      if st.pagesCrawled < cfg.maxPages then
        if st.visited.contains current = true then
          crawlLoop cfg fetch base rest st
        else if cfg.maxDepth < depth then
          crawlLoop cfg fetch base rest st
        else
          crawlLoop cfg fetch base
            (rest ++ (fetchStep cfg base (fetch current) current depth st).2)
            (fetchStep cfg base (fetch current) current depth st).1
      else st := by
  rw [crawlLoop]

theorem crawlLoopF_sound (cfg : CrawlConfig) (fetch : String → List String)
    (base : String) :
    ∀ {fuel : Nat} {q : List (String × Nat)} {st r : CrawlState},
      crawlLoopF cfg fetch base fuel q st = some r →
      crawlLoop cfg fetch base q st = r := by
  intro fuel
  induction fuel with
  | zero =>
    intro q st r h
    rcases q with _ | ⟨⟨c, d⟩, rest⟩
    · simp [crawlLoopF] at h
      rw [crawlLoop_nil, h]
    · simp only [crawlLoopF] at h
      by_cases hp : st.pagesCrawled < cfg.maxPages
      · rw [if_pos hp] at h; simp at h
      · rw [if_neg hp] at h
        simp at h
        rw [crawlLoop_cons, if_neg hp, h]
  | succ fuel ih =>
    intro q st r h
    rcases q with _ | ⟨⟨c, d⟩, rest⟩
    · simp [crawlLoopF] at h
      rw [crawlLoop_nil, h]
    · simp only [crawlLoopF] at h
      rw [crawlLoop_cons]
      by_cases hp : st.pagesCrawled < cfg.maxPages
      · rw [if_pos hp] at h
        rw [if_pos hp]
        by_cases hv : st.visited.contains c = true
        · rw [if_pos hv] at h
          rw [if_pos hv]
          exact ih h
        · rw [if_neg hv] at h
          rw [if_neg hv]
          by_cases hd : cfg.maxDepth < d
          · rw [if_pos hd] at h
            rw [if_pos hd]
            exact ih h
          · rw [if_neg hd] at h
            rw [if_neg hd]
            exact ih h
      · rw [if_neg hp] at h
        simp at h
        rw [if_neg hp, h]

/-- Master preservation lemma for the crawl loop: any relation between
queue and state that survives the two skip branches and the fetch branch
carries its state projection to the final state. -/
theorem crawlLoop_inv (cfg : CrawlConfig) (fetch : String → List String) (base : String)
    (Inv : List (String × Nat) → CrawlState → Prop)
    (P : CrawlState → Prop)
    (hP : ∀ q st, Inv q st → P st)
    (hskip1 : ∀ c d rest st, st.pagesCrawled < cfg.maxPages →
      st.visited.contains c = true → Inv ((c, d) :: rest) st → Inv rest st)
    (hskip2 : ∀ c d rest st, st.pagesCrawled < cfg.maxPages →
      ¬st.visited.contains c = true → cfg.maxDepth < d →
      Inv ((c, d) :: rest) st → Inv rest st)
    (hstep : ∀ c d rest st, st.pagesCrawled < cfg.maxPages →
      ¬st.visited.contains c = true → ¬cfg.maxDepth < d → Inv ((c, d) :: rest) st →
      Inv (rest ++ (fetchStep cfg base (fetch c) c d st).2)
        (fetchStep cfg base (fetch c) c d st).1) :
    ∀ q st, Inv q st → P (crawlLoop cfg fetch base q st) := by
  intro q st
  induction q, st using crawlLoop.induct cfg fetch base with
  | case1 st =>
    intro h
    rw [crawlLoop_nil]
    exact hP _ _ h
  | case2 c d rest st h1 h2 ih =>
    intro h
    rw [crawlLoop_cons, if_pos h1, if_pos h2]
    exact ih (hskip1 c d rest st h1 h2 h)
  | case3 c d rest st h1 h2 h3 ih =>
    intro h
    rw [crawlLoop_cons, if_pos h1, if_neg h2, if_pos h3]
    exact ih (hskip2 c d rest st h1 h2 h3 h)
  | case4 c d rest st h1 h2 h3 ih =>
    intro h
    rw [crawlLoop_cons, if_pos h1, if_neg h2, if_neg h3]
    exact ih (hstep c d rest st h1 h2 h3 h)
  | case5 c d rest st h1 =>
    intro h
    rw [crawlLoop_cons, if_neg h1]
    exact hP _ _ h

/-- What the link loop produces: discovered only grows, every addition is
a filter-accepted link recorded at the next depth, and every queue
candidate is additionally unvisited and within the depth bound. -/
theorem processLinks_spec (cfg : CrawlConfig) (base : String) (visited : List String)
    (depth : Nat) :
    ∀ (links : List String) (disc : List (String × Nat)),
      (∃ extra, (processLinks cfg base visited depth links disc).1 = disc ++ extra ∧
        ∀ e ∈ extra, is_valid_url e.1 base = true ∧ e.2 = depth + 1) ∧
      (∀ e ∈ (processLinks cfg base visited depth links disc).2,
        is_valid_url e.1 base = true ∧ e.2 = depth + 1 ∧ depth + 1 ≤ cfg.maxDepth ∧
          visited.contains e.1 = false) := by
  intro links
  induction links with
  | nil =>
    intro disc
    constructor
    · exact ⟨[], by simp [processLinks], fun e he => absurd he (List.not_mem_nil e)⟩
    · intro e he
      simp [processLinks] at he
  | cons link rest ih =>
    intro disc
    by_cases hv : is_valid_url (normalize_url link) base = true
    · by_cases hd : discHas disc (normalize_url link) = true
      · have hunf : processLinks cfg base visited depth (link :: rest) disc =
            ((processLinks cfg base visited depth rest disc).1,
              (if visited.contains (normalize_url link) = false ∧
                  depth + 1 ≤ cfg.maxDepth then
                [(normalize_url link, depth + 1)] else []) ++
              (processLinks cfg base visited depth rest disc).2) := by
          simp only [processLinks, if_pos hv, if_pos hd]
        rw [hunf]
        constructor
        · obtain ⟨⟨extra2, he2, hv2⟩, _⟩ := ih disc
          exact ⟨extra2, he2, hv2⟩
        · intro e he
          rcases List.mem_append.mp he with he | he
          · by_cases hq : visited.contains (normalize_url link) = false ∧
                depth + 1 ≤ cfg.maxDepth
            · rw [if_pos hq] at he
              simp at he
              subst he
              exact ⟨hv, rfl, hq.2, hq.1⟩
            · rw [if_neg hq] at he
              simp at he
          · exact (ih disc).2 e he
      · have hunf : processLinks cfg base visited depth (link :: rest) disc =
            ((processLinks cfg base visited depth rest
                (disc ++ [(normalize_url link, depth + 1)])).1,
              (if visited.contains (normalize_url link) = false ∧
                  depth + 1 ≤ cfg.maxDepth then
                [(normalize_url link, depth + 1)] else []) ++
              (processLinks cfg base visited depth rest
                (disc ++ [(normalize_url link, depth + 1)])).2) := by
          simp only [processLinks, if_pos hv, if_neg hd]
        rw [hunf]
        constructor
        · obtain ⟨⟨extra2, he2, hv2⟩, _⟩ := ih (disc ++ [(normalize_url link, depth + 1)])
          refine ⟨(normalize_url link, depth + 1) :: extra2, ?_, ?_⟩
          · rw [he2, List.append_assoc, List.singleton_append]
          · intro e he
            rcases List.mem_cons.mp he with rfl | he
            · exact ⟨hv, rfl⟩
            · exact hv2 e he
        · intro e he
          rcases List.mem_append.mp he with he | he
          · by_cases hq : visited.contains (normalize_url link) = false ∧
                depth + 1 ≤ cfg.maxDepth
            · rw [if_pos hq] at he
              simp at he
              subst he
              exact ⟨hv, rfl, hq.2, hq.1⟩
            · rw [if_neg hq] at he
              simp at he
          · exact (ih (disc ++ [(normalize_url link, depth + 1)])).2 e he
    · have hunf : processLinks cfg base visited depth (link :: rest) disc =
          processLinks cfg base visited depth rest disc := by
        simp only [processLinks, if_neg hv]
      rw [hunf]
      exact ih disc

/-- Unfolding of the filter when it accepts: the URL parses, has a
scheme and a host, the domain equals the base, and both exclusion tests
fail. -/
theorem is_valid_url_spec {u base : String} (h : is_valid_url u base = true) :
    ∃ p, urlparse u = some p ∧ p.scheme ≠ "" ∧ p.netloc ≠ "" ∧
      domainOfNetloc p.netloc = base ∧ extensionExcluded p = false ∧
      pathPatternExcluded u = false := by
  rcases hp : urlparse u with _ | p
  · have h2 : (false : Bool) = true := by
      unfold is_valid_url at h
      rw [hp] at h
      exact h
    simp at h2
  · have h2 : (if p.scheme = "" ∨ p.netloc = "" then false
        else if domainOfNetloc p.netloc ≠ base then false
        else if extensionExcluded p = true then false
        else if pathPatternExcluded u = true then false
        else true) = true := by
      unfold is_valid_url at h
      rw [hp] at h
      exact h
    by_cases h1 : p.scheme = "" ∨ p.netloc = ""
    · rw [if_pos h1] at h2; simp at h2
    · rw [if_neg h1] at h2
      push_neg at h1
      by_cases hd : domainOfNetloc p.netloc ≠ base
      · rw [if_pos hd] at h2; simp at h2
      · rw [if_neg hd] at h2
        rw [not_not] at hd
        by_cases h3 : extensionExcluded p = true
        · rw [if_pos h3] at h2; simp at h2
        · rw [if_neg h3] at h2
          by_cases h4 : pathPatternExcluded u = true
          · rw [if_pos h4] at h2; simp at h2
          · exact ⟨p, rfl, h1.1, h1.2, hd,
              Bool.eq_false_iff.mpr h3, Bool.eq_false_iff.mpr h4⟩

/-- Every http-prefixed entry of a successfully scanned URL list parses
and contributes its domain to the extracted set. -/
theorem extract_domains_mem : ∀ {urls ds : List String},
    extract_domains_from_urls urls = some ds →
    ∀ u ∈ urls, startsWithS u "http" = true →
      ∃ p, urlparse u = some p ∧ domainOfNetloc p.netloc ∈ ds := by
  intro urls
  induction urls with
  | nil => intro ds h u hu; simp at hu
  | cons v vs ih =>
    intro ds h u hu hs
    simp only [extract_domains_from_urls] at h
    by_cases hv : startsWithS v "http" = true
    · rw [if_pos hv] at h
      rcases hp : urlparse v with _ | p
      · rw [hp] at h; simp at h
      · rw [hp] at h
        rcases hrec : extract_domains_from_urls vs with _ | ds0
        · rw [hrec] at h; simp at h
        · rw [hrec] at h
          have h9 : domainOfNetloc p.netloc :: ds0 = ds := by simpa using h
          subst h9
          rcases List.mem_cons.mp hu with rfl | hu
          · exact ⟨p, hp, by simp⟩
          · obtain ⟨p2, hp2, hd2⟩ := ih hrec u hu hs
            exact ⟨p2, hp2, by simp [hd2]⟩
    · rw [if_neg hv] at h
      rcases List.mem_cons.mp hu with rfl | hu
      · exact absurd hs hv
      · exact ih h u hu hs

/-- Case analysis of one crawl run: either a degenerate run returning the
empty state, or a main run from the seed queue under the base domain of
the first http seed. -/
theorem crawl_cases {cfg : CrawlConfig} {fetch : String → List String}
    {starts : List String} {st : CrawlState} (h : crawl cfg fetch starts = some st) :
    st = emptyCrawlState ∨
    ∃ u0 p0, starts.find? (fun u => startsWithS u "http") = some u0 ∧
      urlparse u0 = some p0 ∧ domainOfNetloc p0.netloc ≠ "" ∧
      st = crawlLoop cfg fetch (domainOfNetloc p0.netloc) (seedQueue starts)
        ⟨[], seedDisc starts, [], 0⟩ := by
  unfold crawl at h
  by_cases he : starts = []
  · rw [if_pos he] at h
    left
    exact (Option.some_inj.mp h).symm
  · rw [if_neg he] at h
    rcases hf : starts.find? (fun u => startsWithS u "http") with _ | u0
    · rw [hf] at h
      left
      exact (Option.some_inj.mp h).symm
    · rw [hf] at h
      have h2 : (match urlparse u0 with
          | none => none
          | some p0 =>
            if domainOfNetloc p0.netloc = "" then some emptyCrawlState
            else
              some (crawlLoop cfg fetch (domainOfNetloc p0.netloc) (seedQueue starts)
                ⟨[], seedDisc starts, [], 0⟩)) = some st := h
      rcases hp : urlparse u0 with _ | p0
      · rw [hp] at h2
        simp at h2
      · rw [hp] at h2
        have h3 : (if domainOfNetloc p0.netloc = "" then some emptyCrawlState
            else
              some (crawlLoop cfg fetch (domainOfNetloc p0.netloc) (seedQueue starts)
                ⟨[], seedDisc starts, [], 0⟩)) = some st := h2
        by_cases hb : domainOfNetloc p0.netloc = ""
        · rw [if_pos hb] at h3
          left
          exact (Option.some_inj.mp h3).symm
        · rw [if_neg hb] at h3
          right
          exact ⟨u0, p0, rfl, hp, hb, (Option.some_inj.mp h3).symm⟩

/-- Membership in a no-duplicate insertion fold comes from the inserted
list or the accumulator. -/
theorem foldl_insert_mem :
    ∀ {l acc : List (String × Nat)} {e : String × Nat},
      e ∈ l.foldl (fun acc e => if discHas acc e.1 = true then acc else acc ++ [e]) acc →
      e ∈ acc ∨ e ∈ l := by
  intro l
  induction l with
  | nil => intro acc e h; exact Or.inl h
  | cons x xs ih =>
    intro acc e h
    simp only [List.foldl_cons] at h
    rcases ih h with h2 | h2
    · by_cases hd : discHas acc x.1 = true
      · rw [if_pos hd] at h2
        exact Or.inl h2
      · rw [if_neg hd] at h2
        rcases List.mem_append.mp h2 with h3 | h3
        · exact Or.inl h3
        · simp at h3
          subst h3
          exact Or.inr (by simp)
    · exact Or.inr (by simp [h2])

theorem seedDisc_mem {starts : List String} {e : String × Nat}
    (h : e ∈ seedDisc starts) : e ∈ seedQueue starts := by
  rcases foldl_insert_mem h with h2 | h2
  · simp at h2
  · exact h2

theorem seedQueue_mem {starts : List String} {e : String × Nat}
    (h : e ∈ seedQueue starts) :
    ∃ s ∈ starts, startsWithS s "http" = true ∧ e = (normalize_url s, 0) := by
  unfold seedQueue at h
  rw [List.mem_filterMap] at h
  obtain ⟨s, hs, he⟩ := h
  by_cases hh : startsWithS s "http" = true
  · rw [if_pos hh] at he
    exact ⟨s, hs, hh, (Option.some.injEq _ _ ▸ he).symm⟩
  · rw [if_neg hh] at he
    simp at he

/-- Every list of pairs that all carry the same second component is
pairwise nondecreasing in that component. -/
theorem pairwise_le_of_const {l : List Nat} {v : Nat} (h : ∀ x ∈ l, x = v) :
    l.Pairwise (· ≤ ·) := by
  induction l with
  | nil => exact List.Pairwise.nil
  | cons x xs ih =>
    refine List.Pairwise.cons ?_ (ih fun y hy => h y (by simp [hy]))
    intro y hy
    rw [h x (by simp), h y (by simp [hy])]

/-! ## Claim theorems for the URL Normalizer -/

/-- Validity in the sense of the spec wording in section 4.1: the string
parses as an absolute URL with scheme http or https. -/
def isAbsoluteHttpUrl (u : String) : Bool :=
  match urlparse u with
  | some p => (p.scheme == "http" || p.scheme == "https") && p.netloc != ""
  | none => false

theorem isAbsoluteHttpUrl_spec {u : String} (h : isAbsoluteHttpUrl u = true) :
    ∃ p, urlparse u = some p ∧ (p.scheme = "http" ∨ p.scheme = "https") ∧
      p.netloc ≠ "" := by
  rcases hp : urlparse u with _ | p
  · have h2 : (false : Bool) = true := by
      unfold isAbsoluteHttpUrl at h
      rw [hp] at h
      exact h
    simp at h2
  · have h2 : ((p.scheme == "http" || p.scheme == "https") && p.netloc != "") = true := by
      unfold isAbsoluteHttpUrl at h
      rw [hp] at h
      exact h
    rw [Bool.and_eq_true] at h2
    refine ⟨p, rfl, ?_, ?_⟩
    · rcases Bool.or_eq_true_iff.mp h2.1 with h3 | h3
      · exact Or.inl (eq_of_beq h3)
      · exact Or.inr (eq_of_beq h3)
    · simpa using h2.2

/-- Counterexample to claim C6: the normalizer is not idempotent.  On a
valid absolute http URL ending in a slash whose last path segment
starts a params semicolon after an interior slash, the first pass only
strips the trailing slash; the second pass splits the params off the
now-final segment and removes the slash in front of them. -/
theorem c6_counterexample :
    isAbsoluteHttpUrl "http://ex.com/a/;b/" = true ∧
    normalize_url "http://ex.com/a/;b/" = "http://ex.com/a/;b" ∧
    normalize_url "http://ex.com/a/;b" = "http://ex.com/a;b" ∧
    normalize_url (normalize_url "http://ex.com/a/;b/") ≠
      normalize_url "http://ex.com/a/;b/" :=
  ⟨by decide, by decide, by decide, by decide⟩

/-- Claim C6 as amended: normalization is idempotent on every input
that parses with a nonempty host, an empty params component and no
semicolon in the path; in particular on every absolute http(s) URL
free of the params syntax. -/
theorem c6_amended_idempotent_no_params (u : String) (r : ParseResult)
    (hp : urlparse u = some r) (hn : r.netloc ≠ "")
    (hpar : r.params = "") (hsemi : ';' ∉ r.path.data) :
    normalize_url (normalize_url u) = normalize_url u := by
  have hpd : r.params.data = [] := by rw [hpar]
  have hr1 := urlparse_normalize hp hn
  have hcomb : (normPath r.path.data ++
      (if r.params.data ≠ [] then ';' :: r.params.data else [])) =
      normPath r.path.data := by
    rw [hpd]
    simp
  rw [hcomb] at hr1
  have hnm : ';' ∉ normPath r.path.data := by
    intro ha
    rcases mem_normPath ha with ha | ha
    · exact hsemi ha
    · exact absurd ha (by decide)
  have hw2 : withParams ⟨r.scheme, r.netloc, ⟨normPath r.path.data⟩, r.query, ""⟩ =
      ⟨r.scheme, r.netloc, ⟨normPath r.path.data⟩, "", r.query, ""⟩ := by
    unfold withParams
    rw [if_neg (by simp [hnm])]
  rw [hw2] at hr1
  have h2 : normalize_url (normalize_url u) =
      urlunparse ⟨r.scheme, r.netloc, ⟨normPath (normPath r.path.data)⟩, "",
        r.query, ""⟩ := by
    conv_lhs => rw [normalize_url.eq_def, hr1]
  have h1 : normalize_url u =
      urlunparse { r with path := ⟨normPath r.path.data⟩, fragment := "" } := by
    unfold normalize_url
    rw [hp]
  have hrec : ({ r with path := ⟨normPath r.path.data⟩, fragment := "" } :
      ParseResult) =
      ⟨r.scheme, r.netloc, ⟨normPath r.path.data⟩, "", r.query, ""⟩ := by
    rw [← hpar]
  rw [h2, normPath_idem, h1, hrec]

/-- Witness for the amended C6 at a concrete params-free URL. -/
theorem c6_amended_witness :
    normalize_url (normalize_url "http://ex.com/a/") =
      normalize_url "http://ex.com/a/" :=
  c6_amended_idempotent_no_params "http://ex.com/a/"
    ⟨"http", "ex.com", "/a/", "", "", ""⟩ (by decide) (by decide) (by decide)
    (by decide)

/-- Counterexample to claim C5: the normalizer does not strip the known
tracking query parameters; two URLs differing only in utm_source keep
different canonical forms, and the parameter survives normalization
verbatim. -/
theorem c5_counterexample :
    normalize_url "http://ex.com/a?utm_source=x" = "http://ex.com/a?utm_source=x" ∧
    normalize_url "http://ex.com/a" = "http://ex.com/a" ∧
    normalize_url "http://ex.com/a?utm_source=x" ≠ normalize_url "http://ex.com/a" := by
  refine ⟨by decide, by decide, by decide⟩

/-- Claim C5 as amended: for every URL that parses with a nonempty host
(in particular every valid absolute http(s) URL), normalization keeps
the query string verbatim, removes the fragment, and leaves scheme and
host unchanged.  No query parameter is ever stripped. -/
theorem c5_amended_normalize_query_preserved (u : String) (p : ParseResult)
    (hp : urlparse u = some p) (hn : p.netloc ≠ "") :
    ∃ p2, urlparse (normalize_url u) = some p2 ∧ p2.query = p.query ∧
      p2.fragment = "" ∧ p2.scheme = p.scheme ∧ p2.netloc = p.netloc := by
  obtain ⟨r2, h1, h2, h3, h4, h5⟩ := urlparse_normalize_components hp hn
  exact ⟨r2, h1, h4, h5, h2, h3⟩

/-- Witness for the amended C5 at a URL carrying two tracking
parameters. -/
theorem c5_amended_witness :
    ∃ p2, urlparse (normalize_url "http://ex.com/a?utm_source=1&gclid=2") = some p2 ∧
      p2.query = ("utm_source=1&gclid=2" : String) := by
  obtain ⟨p2, hp2, hq, _⟩ := c5_amended_normalize_query_preserved
    "http://ex.com/a?utm_source=1&gclid=2"
    ⟨"http", "ex.com", "/a", "", "utm_source=1&gclid=2", ""⟩ (by decide) (by decide)
  exact ⟨p2, hp2, hq⟩

/-- Counterexample to claim C7: an input that is not parseable as an
absolute http(s) URL on which the normalizer does not fail but returns
a normalized canonical string (it even applies its trailing slash
rule). -/
theorem c7_counterexample :
    isAbsoluteHttpUrl "ftp://example.com/a/" = false ∧
    normalize_url "ftp://example.com/a/" = "ftp://example.com/a" :=
  ⟨by decide, by decide⟩

/-- Claim C7 as amended: the normalizer never signals failure.  An
input on which urlsplit raises is returned unchanged (the except
branch), and every other input, whatever its scheme, is rebuilt by the
fragment and trailing slash rules; a nonempty-host input parses back
with its scheme and host intact. -/
theorem c7_amended_normalizer_total (u : String) :
    (urlparse u = none → normalize_url u = u) ∧
    (∀ p, urlparse u = some p → p.netloc ≠ "" →
      ∃ p2, urlparse (normalize_url u) = some p2 ∧
        p2.scheme = p.scheme ∧ p2.netloc = p.netloc) := by
  constructor
  · intro h
    unfold normalize_url
    rw [h]
  · intro p hp hn
    obtain ⟨r2, h1, h2, h3, _, _⟩ := urlparse_normalize_components hp hn
    exact ⟨r2, h1, h2, h3⟩

/-- Witness for the amended C7 at a non-http input that the normalizer
processes successfully. -/
theorem c7_amended_witness :
    normalize_url "ftp://example.com/a/" = "ftp://example.com/a" ∧
    ∃ p2, urlparse (normalize_url "ftp://example.com/a/") = some p2 ∧
      p2.scheme = ("ftp" : String) ∧ p2.netloc = ("example.com" : String) := by
  refine ⟨by decide, ?_⟩
  obtain ⟨p2, h1, h2, h3⟩ := (c7_amended_normalizer_total "ftp://example.com/a/").2
    ⟨"ftp", "example.com", "/a/", "", "", ""⟩ (by decide) (by decide)
  exact ⟨p2, h1, h2, h3⟩

/-! ## Concrete crawl scenarios used by witnesses and counterexamples -/

/-- A two-page site: the root links to one subpage. -/
def fetchW : String → List String := fun u =>
  if u == "http://ex.com/" then ["http://ex.com/a"] else []

/-- A site of linkless pages. -/
def fetchB : String → List String := fun _ => []

theorem runW : crawl ⟨2, 5⟩ fetchW ["http://ex.com/"] =
    some ⟨["http://ex.com/a", "http://ex.com/"],
      [("http://ex.com/", 0), ("http://ex.com/a", 1)],
      [("http://ex.com/", 0), ("http://ex.com/a", 1)], 2⟩ := by
  have h : crawlLoopF ⟨2, 5⟩ fetchW "ex.com" 8
      (seedQueue ["http://ex.com/"]) ⟨[], seedDisc ["http://ex.com/"], [], 0⟩ =
      some ⟨["http://ex.com/a", "http://ex.com/"],
        [("http://ex.com/", 0), ("http://ex.com/a", 1)],
        [("http://ex.com/", 0), ("http://ex.com/a", 1)], 2⟩ := by decide
  have h2 := crawlLoopF_sound _ _ _ h
  show some (crawlLoop ⟨2, 5⟩ fetchW "ex.com"
      (seedQueue ["http://ex.com/"]) ⟨[], seedDisc ["http://ex.com/"], [], 0⟩) = _
  rw [h2]

theorem runA : crawl ⟨0, 5⟩ fetchW ["http://ex.com/"] =
    some ⟨["http://ex.com/"],
      [("http://ex.com/", 0), ("http://ex.com/a", 1)],
      [("http://ex.com/", 0)], 1⟩ := by
  have h : crawlLoopF ⟨0, 5⟩ fetchW "ex.com" 8
      (seedQueue ["http://ex.com/"]) ⟨[], seedDisc ["http://ex.com/"], [], 0⟩ =
      some ⟨["http://ex.com/"],
        [("http://ex.com/", 0), ("http://ex.com/a", 1)],
        [("http://ex.com/", 0)], 1⟩ := by decide
  have h2 := crawlLoopF_sound _ _ _ h
  show some (crawlLoop ⟨0, 5⟩ fetchW "ex.com"
      (seedQueue ["http://ex.com/"]) ⟨[], seedDisc ["http://ex.com/"], [], 0⟩) = _
  rw [h2]

theorem runB : crawl ⟨2, 5⟩ fetchB ["http://ex.com/", "http:////x/"] =
    some ⟨["http://x", "http://ex.com/"],
      [("http://ex.com/", 0), ("http://x", 0)],
      [("http://ex.com/", 0), ("http://x", 0)], 2⟩ := by
  have h : crawlLoopF ⟨2, 5⟩ fetchB "ex.com" 8
      (seedQueue ["http://ex.com/", "http:////x/"])
      ⟨[], seedDisc ["http://ex.com/", "http:////x/"], [], 0⟩ =
      some ⟨["http://x", "http://ex.com/"],
        [("http://ex.com/", 0), ("http://x", 0)],
        [("http://ex.com/", 0), ("http://x", 0)], 2⟩ := by decide
  have h2 := crawlLoopF_sound _ _ _ h
  show some (crawlLoop ⟨2, 5⟩ fetchB "ex.com"
      (seedQueue ["http://ex.com/", "http:////x/"])
      ⟨[], seedDisc ["http://ex.com/", "http:////x/"], [], 0⟩) = _
  rw [h2]

theorem runC : crawl ⟨2, 5⟩ fetchB ["http://ex.com/doc.pdf"] =
    some ⟨["http://ex.com/doc.pdf"], [("http://ex.com/doc.pdf", 0)],
      [("http://ex.com/doc.pdf", 0)], 1⟩ := by
  have h : crawlLoopF ⟨2, 5⟩ fetchB "ex.com" 8
      (seedQueue ["http://ex.com/doc.pdf"]) ⟨[], seedDisc ["http://ex.com/doc.pdf"], [], 0⟩ =
      some ⟨["http://ex.com/doc.pdf"], [("http://ex.com/doc.pdf", 0)],
        [("http://ex.com/doc.pdf", 0)], 1⟩ := by decide
  have h2 := crawlLoopF_sound _ _ _ h
  show some (crawlLoop ⟨2, 5⟩ fetchB "ex.com"
      (seedQueue ["http://ex.com/doc.pdf"]) ⟨[], seedDisc ["http://ex.com/doc.pdf"], [], 0⟩) = _
  rw [h2]

theorem runE : crawl ⟨2, 5⟩ fetchB ["http://ex.com/", "http:////[x/"] =
    some ⟨["http://[x", "http://ex.com/"],
      [("http://ex.com/", 0), ("http://[x", 0)],
      [("http://ex.com/", 0), ("http://[x", 0)], 2⟩ := by
  have h : crawlLoopF ⟨2, 5⟩ fetchB "ex.com" 8
      (seedQueue ["http://ex.com/", "http:////[x/"])
      ⟨[], seedDisc ["http://ex.com/", "http:////[x/"], [], 0⟩ =
      some ⟨["http://[x", "http://ex.com/"],
        [("http://ex.com/", 0), ("http://[x", 0)],
        [("http://ex.com/", 0), ("http://[x", 0)], 2⟩ := by decide
  have h2 := crawlLoopF_sound _ _ _ h
  show some (crawlLoop ⟨2, 5⟩ fetchB "ex.com"
      (seedQueue ["http://ex.com/", "http:////[x/"])
      ⟨[], seedDisc ["http://ex.com/", "http:////[x/"], [], 0⟩) = _
  rw [h2]

/-! ## Claim theorems for the crawl -/

/-- Claim C10: a start list with no http-prefixed string produces the
empty crawl result without fetching any page. -/
theorem c10_no_http_seed_empty (cfg : CrawlConfig) (fetch : String → List String)
    (starts : List String) (h : ∀ u ∈ starts, startsWithS u "http" = false) :
    crawl cfg fetch starts = some emptyCrawlState := by
  unfold crawl
  by_cases he : starts = []
  · rw [if_pos he]
  · rw [if_neg he]
    have hf : starts.find? (fun u => startsWithS u "http") = none :=
      List.find?_eq_none.mpr (fun x hx => by simp [h x hx])
    rw [hf]

/-- Witness for C10: a start list of one ftp URL and one regex rule. -/
theorem c10_witness :
    (∀ u ∈ (["ftp://x.com/", "ev:/a"] : List String), startsWithS u "http" = false) ∧
    crawl ⟨2, 5⟩ fetchB ["ftp://x.com/", "ev:/a"] = some emptyCrawlState :=
  ⟨by decide, c10_no_http_seed_empty ⟨2, 5⟩ fetchB ["ftp://x.com/", "ev:/a"] (by decide)⟩

/-- Claim C3: in every crawl run that returns, the visited set is
duplicate free and its size never exceeds the configured page budget. -/
theorem c3_budget_bound (cfg : CrawlConfig) (fetch : String → List String)
    (starts : List String) (st : CrawlState)
    (h : crawl cfg fetch starts = some st) :
    st.visited.length ≤ cfg.maxPages ∧ st.visited.Nodup := by
  rcases crawl_cases h with rfl | ⟨u0, p0, hf, hp, hb, rfl⟩
  · exact ⟨by simp [emptyCrawlState], by simp [emptyCrawlState]⟩
  · apply crawlLoop_inv cfg fetch (domainOfNetloc p0.netloc)
      (fun q st => st.pagesCrawled = st.visited.length ∧
        st.pagesCrawled ≤ cfg.maxPages ∧ st.visited.Nodup)
      (fun st => st.visited.length ≤ cfg.maxPages ∧ st.visited.Nodup)
    · intro q st hinv
      exact ⟨hinv.1 ▸ hinv.2.1, hinv.2.2⟩
    · intro c d rest st _ _ hinv
      exact hinv
    · intro c d rest st _ _ _ hinv
      exact hinv
    · intro c d rest st h1 h2 _ hinv
      obtain ⟨hlen, hle, hnd⟩ := hinv
      refine ⟨?_, ?_, ?_⟩
      · simp [fetchStep, ← hlen]
      · simp only [fetchStep]
        omega
      · simp only [fetchStep]
        refine List.Nodup.cons ?_ hnd
        simpa using h2
    · exact ⟨rfl, Nat.zero_le _, List.nodup_nil⟩

/-- Witness for C3 at a concrete two-page run. -/
theorem c3_witness :
    (["http://ex.com/a", "http://ex.com/"] : List String).length ≤
        (⟨2, 5⟩ : CrawlConfig).maxPages ∧
      (["http://ex.com/a", "http://ex.com/"] : List String).Nodup := by
  have h := c3_budget_bound ⟨2, 5⟩ fetchW ["http://ex.com/"] _ runW
  exact h

/-- Counterexample to claim C4: with a depth budget of zero, the link
found on the depth-zero page is recorded in discovered at depth one,
strictly beyond maxDepth (it is only kept out of the fetch queue). -/
theorem c4_counterexample :
    ∃ st, crawl ⟨0, 5⟩ fetchW ["http://ex.com/"] = some st ∧
      ("http://ex.com/a", 1) ∈ st.discovered ∧
      ¬((1 : Nat) ≤ (⟨0, 5⟩ : CrawlConfig).maxDepth) :=
  ⟨_, runA, by decide, by decide⟩

/-- Claim C4 as amended: every discovered entry has depth at most
maxDepth plus one; pages are fetched only up to maxDepth, and their
links are still recorded one level deeper. -/
theorem c4_amended_depth_bound (cfg : CrawlConfig) (fetch : String → List String)
    (starts : List String) (st : CrawlState)
    (h : crawl cfg fetch starts = some st) :
    ∀ e ∈ st.discovered, e.2 ≤ cfg.maxDepth + 1 := by
  rcases crawl_cases h with rfl | ⟨u0, p0, hf, hp, hb, rfl⟩
  · intro e he
    simp [emptyCrawlState] at he
  · apply crawlLoop_inv cfg fetch (domainOfNetloc p0.netloc)
      (fun q st => ∀ e ∈ st.discovered, e.2 ≤ cfg.maxDepth + 1)
      (fun st => ∀ e ∈ st.discovered, e.2 ≤ cfg.maxDepth + 1)
    · exact fun q st hinv => hinv
    · exact fun c d rest st _ _ hinv => hinv
    · exact fun c d rest st _ _ _ hinv => hinv
    · intro c d rest st h1 h2 h3 hinv e he
      simp only [fetchStep] at he
      obtain ⟨⟨extra, heq, hval⟩, _⟩ := processLinks_spec cfg (domainOfNetloc p0.netloc)
        (c :: st.visited) d (fetch c) st.discovered
      rw [heq] at he
      rcases List.mem_append.mp he with he | he
      · exact hinv e he
      · obtain ⟨_, hd2⟩ := hval e he
        rw [hd2]
        omega
    · intro e he
      obtain ⟨s, _, _, he2⟩ := seedQueue_mem (seedDisc_mem he)
      rw [he2]
      simp

/-- Witness for the amended C4 at a concrete two-page run. -/
theorem c4_amended_witness :
    (("http://ex.com/a", 1) : String × Nat).2 ≤ (⟨2, 5⟩ : CrawlConfig).maxDepth + 1 :=
  c4_amended_depth_bound ⟨2, 5⟩ fetchW ["http://ex.com/"] _ runW
    ("http://ex.com/a", 1) (by decide)

/-- Counterexample to claim C8: a seed ending in an excluded extension
enters the discovered set and is even fetched, because seeds bypass the
link filter. -/
theorem c8_counterexample :
    ∃ st, crawl ⟨2, 5⟩ fetchB ["http://ex.com/doc.pdf"] = some st ∧
      "http://ex.com/doc.pdf" ∈ discoveredUrls st ∧
      "http://ex.com/doc.pdf" ∈ st.visited ∧
      ∃ p, urlparse "http://ex.com/doc.pdf" = some p ∧ extensionExcluded p = true :=
  ⟨_, runC, by decide, by decide,
    ⟨"http", "ex.com", "/doc.pdf", "", "", ""⟩, by decide, by decide⟩

/-- Claim C8 as amended: every discovered URL is either a normalized
seed (seeds bypass the filter) or passes the filter, ending in no
excluded extension and matching no excluded path pattern. -/
theorem c8_amended_filter_or_seed (cfg : CrawlConfig) (fetch : String → List String)
    (starts : List String) (st : CrawlState)
    (h : crawl cfg fetch starts = some st) :
    ∀ u ∈ discoveredUrls st,
      (∃ s ∈ starts, startsWithS s "http" = true ∧ u = normalize_url s) ∨
      (∃ p, urlparse u = some p ∧ extensionExcluded p = false ∧
        pathPatternExcluded u = false) := by
  rcases crawl_cases h with rfl | ⟨u0, p0, hf, hp, hb, rfl⟩
  · intro u hu
    simp [discoveredUrls, emptyCrawlState] at hu
  · apply crawlLoop_inv cfg fetch (domainOfNetloc p0.netloc)
      (fun q st => ∀ u ∈ discoveredUrls st,
        (∃ s ∈ starts, startsWithS s "http" = true ∧ u = normalize_url s) ∨
        (∃ p, urlparse u = some p ∧ extensionExcluded p = false ∧
          pathPatternExcluded u = false))
      (fun st => ∀ u ∈ discoveredUrls st,
        (∃ s ∈ starts, startsWithS s "http" = true ∧ u = normalize_url s) ∨
        (∃ p, urlparse u = some p ∧ extensionExcluded p = false ∧
          pathPatternExcluded u = false))
    · exact fun q st hinv => hinv
    · exact fun c d rest st _ _ hinv => hinv
    · exact fun c d rest st _ _ _ hinv => hinv
    · intro c d rest st h1 h2 h3 hinv u hu
      simp only [fetchStep, discoveredUrls] at hu
      obtain ⟨⟨extra, heq, hval⟩, _⟩ := processLinks_spec cfg (domainOfNetloc p0.netloc)
        (c :: st.visited) d (fetch c) st.discovered
      rw [heq, List.map_append] at hu
      rcases List.mem_append.mp hu with hu | hu
      · exact hinv u hu
      · rw [List.mem_map] at hu
        obtain ⟨e, he, rfl⟩ := hu
        obtain ⟨hvalid, _⟩ := hval e he
        obtain ⟨p, hpp, _, _, _, hext, hpat⟩ := is_valid_url_spec hvalid
        exact Or.inr ⟨p, hpp, hext, hpat⟩
    · intro u hu
      rw [discoveredUrls, List.mem_map] at hu
      obtain ⟨e, he, rfl⟩ := hu
      obtain ⟨sd, hsd, hhttp, he2⟩ := seedQueue_mem (seedDisc_mem he)
      rw [he2]
      exact Or.inl ⟨sd, hsd, hhttp, rfl⟩

/-- Witness for the amended C8 at a discovered non-seed link of a
concrete run. -/
theorem c8_amended_witness :
    (∃ s ∈ (["http://ex.com/"] : List String), startsWithS s "http" = true ∧
      ("http://ex.com/a" : String) = normalize_url s) ∨
    (∃ p, urlparse "http://ex.com/a" = some p ∧ extensionExcluded p = false ∧
      pathPatternExcluded "http://ex.com/a" = false) :=
  c8_amended_filter_or_seed ⟨2, 5⟩ fetchW ["http://ex.com/"] _ runW
    "http://ex.com/a" (by decide)

/-- Counterexample to claim C1: a literal seed with an empty host whose
path begins with two slashes is rewritten by normalization into a URL
whose host lies outside the set of www-collapsed hosts of the tracked
URLs, and it enters the final discovered set. -/
theorem c1_counterexample :
    extract_domains_from_urls ["http://ex.com/", "http:////x/"] = some ["ex.com", ""] ∧
    ∃ st, crawl ⟨2, 5⟩ fetchB ["http://ex.com/", "http:////x/"] = some st ∧
      "http://x" ∈ discoveredUrls st ∧
      urlDomain "http://x" = some "x" ∧
      ("x" : String) ∉ (["ex.com", ""] : List String) :=
  ⟨by decide, _, runB, by decide, by decide, by decide⟩

/-- Claim C1 as amended: when every http-prefixed seed parses with a
nonempty host (a genuine absolute URL), no entry of the final
discovered set has a domain outside the set of www-collapsed domains
extracted from the start list. -/
theorem c1_amended_domain_scoping (cfg : CrawlConfig) (fetch : String → List String)
    (starts : List String) (ds : List String) (st : CrawlState)
    (hds : extract_domains_from_urls starts = some ds)
    (hhost : ∀ u ∈ starts, startsWithS u "http" = true →
      ∀ p, urlparse u = some p → p.netloc ≠ "")
    (h : crawl cfg fetch starts = some st) :
    ∀ u ∈ discoveredUrls st, ∃ d ∈ ds, urlDomain u = some d := by
  rcases crawl_cases h with rfl | ⟨u0, p0, hf, hp, hb, rfl⟩
  · intro u hu
    simp [discoveredUrls, emptyCrawlState] at hu
  · have hbase : domainOfNetloc p0.netloc ∈ ds := by
      have hmem := List.mem_of_find?_eq_some hf
      have hpred := List.find?_some hf
      obtain ⟨pp, hpp, hdd⟩ := extract_domains_mem hds u0 hmem hpred
      rw [hp] at hpp
      rw [Option.some_inj.mp hpp]
      exact hdd
    apply crawlLoop_inv cfg fetch (domainOfNetloc p0.netloc)
      (fun q st => ∀ u ∈ discoveredUrls st, ∃ d ∈ ds, urlDomain u = some d)
      (fun st => ∀ u ∈ discoveredUrls st, ∃ d ∈ ds, urlDomain u = some d)
    · exact fun q st hinv => hinv
    · exact fun c d rest st _ _ hinv => hinv
    · exact fun c d rest st _ _ _ hinv => hinv
    · intro c d rest st h1 h2 h3 hinv u hu
      simp only [fetchStep, discoveredUrls] at hu
      obtain ⟨⟨extra, heq, hval⟩, _⟩ := processLinks_spec cfg (domainOfNetloc p0.netloc)
        (c :: st.visited) d (fetch c) st.discovered
      rw [heq, List.map_append] at hu
      rcases List.mem_append.mp hu with hu | hu
      · exact hinv u hu
      · rw [List.mem_map] at hu
        obtain ⟨e, he, rfl⟩ := hu
        obtain ⟨hvalid, _⟩ := hval e he
        obtain ⟨q, hq, _, _, hdom, _, _⟩ := is_valid_url_spec hvalid
        refine ⟨domainOfNetloc p0.netloc, hbase, ?_⟩
        unfold urlDomain
        rw [hq]
        simp [hdom]
    · intro u hu
      rw [discoveredUrls, List.mem_map] at hu
      obtain ⟨e, he, rfl⟩ := hu
      obtain ⟨sd, hsd, hhttp, he2⟩ := seedQueue_mem (seedDisc_mem he)
      obtain ⟨pp, hpp, hdd⟩ := extract_domains_mem hds sd hsd hhttp
      have hnl := hhost sd hsd hhttp pp hpp
      have hround := urlparse_normalize hpp hnl
      rw [he2]
      refine ⟨domainOfNetloc pp.netloc, hdd, ?_⟩
      unfold urlDomain
      rw [hround]
      simp [withParams_netloc]

/-- Witness for the amended C1 at a concrete run with one seed and one
discovered link. -/
theorem c1_amended_witness :
    extract_domains_from_urls ["http://ex.com/"] = some ["ex.com"] ∧
    ∃ d ∈ (["ex.com"] : List String), urlDomain "http://ex.com/a" = some d := by
  refine ⟨by decide, ?_⟩
  apply c1_amended_domain_scoping ⟨2, 5⟩ fetchW ["http://ex.com/"] ["ex.com"] _
    (by decide) ?_ runW "http://ex.com/a" (by decide)
  intro u hu hs p hp
  have hu2 : u = "http://ex.com/" := by simpa using hu
  subst hu2
  have hc : urlparse "http://ex.com/" =
      some (⟨"http", "ex.com", "/", "", "", ""⟩ : ParseResult) := by decide
  rw [hc] at hp
  rw [← Option.some_inj.mp hp]
  decide

/-- Claim C9: the depths of the fetched pages, in fetch order, are
nondecreasing over the whole run.  In the sequential loop this is the
level order guarantee: a page at depth d is fetched only after every
fetched page of smaller depth. -/
theorem c9_fetch_depths_monotone (cfg : CrawlConfig) (fetch : String → List String)
    (starts : List String) (st : CrawlState)
    (h : crawl cfg fetch starts = some st) :
    List.Sorted (· ≤ ·) (st.fetchLog.map Prod.snd) := by
  rcases crawl_cases h with rfl | ⟨u0, p0, hf, hp, hb, rfl⟩
  · simp [emptyCrawlState]
  · apply crawlLoop_inv cfg fetch (domainOfNetloc p0.netloc)
      (fun q st =>
        List.Pairwise (· ≤ ·) (st.fetchLog.map Prod.snd) ∧
        List.Pairwise (· ≤ ·) (q.map Prod.snd) ∧
        (∀ e ∈ q, ∀ x ∈ st.fetchLog, x.2 ≤ e.2) ∧
        (∀ a ∈ q, ∀ b ∈ q, b.2 ≤ a.2 + 1))
      (fun st => List.Sorted (· ≤ ·) (st.fetchLog.map Prod.snd))
    · exact fun q st hinv => hinv.1
    · intro c d rest st _ _ hinv
      obtain ⟨hlog, hq, hlq, hspread⟩ := hinv
      simp only [List.map_cons] at hq
      exact ⟨hlog, (List.pairwise_cons.mp hq).2,
        fun e he x hx => hlq e (by simp [he]) x hx,
        fun a ha b hb => hspread a (by simp [ha]) b (by simp [hb])⟩
    · intro c d rest st _ _ _ hinv
      obtain ⟨hlog, hq, hlq, hspread⟩ := hinv
      simp only [List.map_cons] at hq
      exact ⟨hlog, (List.pairwise_cons.mp hq).2,
        fun e he x hx => hlq e (by simp [he]) x hx,
        fun a ha b hb => hspread a (by simp [ha]) b (by simp [hb])⟩
    · intro c d rest st h1 h2 h3 hinv
      obtain ⟨hlog, hq, hlq, hspread⟩ := hinv
      simp only [List.map_cons] at hq
      have hqhead := (List.pairwise_cons.mp hq).1
      have hqtail := (List.pairwise_cons.mp hq).2
      obtain ⟨_, hq2spec⟩ := processLinks_spec cfg (domainOfNetloc p0.netloc)
        (c :: st.visited) d (fetch c) st.discovered
      simp only [fetchStep]
      refine ⟨?_, ?_, ?_, ?_⟩
      · rw [List.map_append]
        apply List.pairwise_append.mpr
        refine ⟨hlog, by simp, ?_⟩
        intro x hx y hy
        simp at hy
        rw [List.mem_map] at hx
        obtain ⟨e, he, rfl⟩ := hx
        rw [hy]
        exact hlq (c, d) (by simp) e he
      · rw [List.map_append]
        apply List.pairwise_append.mpr
        refine ⟨hqtail, ?_, ?_⟩
        · apply pairwise_le_of_const
          intro x hx
          rw [List.mem_map] at hx
          obtain ⟨e, he, rfl⟩ := hx
          exact (hq2spec e he).2.1
        · intro x hx y hy
          rw [List.mem_map] at hx hy
          obtain ⟨e, he, rfl⟩ := hx
          obtain ⟨e2, he2, rfl⟩ := hy
          rw [(hq2spec e2 he2).2.1]
          exact hspread (c, d) (by simp) e (by simp [he])
      · intro e he x hx
        rcases List.mem_append.mp hx with hx | hx
        · rcases List.mem_append.mp he with he | he
          · exact hlq e (by simp [he]) x hx
          · rw [(hq2spec e he).2.1]
            have := hlq (c, d) (by simp) x hx
            omega
        · simp at hx
          subst hx
          rcases List.mem_append.mp he with he | he
          · have : d ≤ e.2 := by
              apply hqhead
              exact List.mem_map_of_mem Prod.snd he
            exact this
          · rw [(hq2spec e he).2.1]
            omega
      · intro a ha b hb
        rcases List.mem_append.mp ha with ha | ha <;>
          rcases List.mem_append.mp hb with hb | hb
        · exact hspread a (by simp [ha]) b (by simp [hb])
        · rw [(hq2spec b hb).2.1]
          have hda : d ≤ a.2 := hqhead a.2 (List.mem_map_of_mem Prod.snd ha)
          omega
        · rw [(hq2spec a ha).2.1]
          have := hspread (c, d) (by simp) b (by simp [hb])
          omega
        · rw [(hq2spec a ha).2.1, (hq2spec b hb).2.1]
          omega
    · refine ⟨by simp, ?_, ?_, ?_⟩
      · apply pairwise_le_of_const
        intro x hx
        rw [List.mem_map] at hx
        obtain ⟨e, he, rfl⟩ := hx
        obtain ⟨sd, _, _, he2⟩ := seedQueue_mem he
        rw [he2]
      · intro e _ x hx
        simp at hx
      · intro a ha b hb
        obtain ⟨_, _, _, ha2⟩ := seedQueue_mem ha
        obtain ⟨_, _, _, hb2⟩ := seedQueue_mem hb
        rw [ha2, hb2]
        omega

/-- Witness for C9 at a concrete two-page run. -/
theorem c9_witness :
    List.Sorted (· ≤ ·)
      (([("http://ex.com/", 0), ("http://ex.com/a", 1)] :
        List (String × Nat)).map Prod.snd) :=
  c9_fetch_depths_monotone ⟨2, 5⟩ fetchW ["http://ex.com/"] _ runW

/-- Sanity of the engine model: every fixed exclusion pattern of the
source compiles in the modelled regex fragment. -/
theorem excluded_patterns_compile :
    EXCLUDED_PATH_PATTERNS.all (fun p => (parseRegex p).isSome) = true := by decide

/-- The rule loop finds a pattern exactly when some pattern in the list
carries a well formed prefix, a nonempty body that compiles, and a body
matching the path or the full URL. -/
theorem regexRuleScan_isSome_iff (u path : String) :
    ∀ pats : List String,
      (regexRuleScan u path pats).isSome = true ↔
      ∃ pat ∈ pats, ∃ body re, ruleBody pat = some body ∧ body ≠ "" ∧
        parseRegex body = some re ∧
        (reSearch re path.data = true ∨ reSearch re u.data = true) := by
  intro pats
  induction pats with
  | nil =>
    simp [regexRuleScan]
  | cons pat rest ih =>
    rcases hrb : ruleBody pat with _ | body
    · have hunf : regexRuleScan u path (pat :: rest) = regexRuleScan u path rest := by
        simp only [regexRuleScan, hrb]
      rw [hunf, ih]
      constructor
      · intro ⟨p2, hp2, hrest⟩
        exact ⟨p2, by simp [hp2], hrest⟩
      · intro ⟨p2, hp2, body, re, hb, hrest⟩
        rcases List.mem_cons.mp hp2 with rfl | hp2
        · rw [hrb] at hb
          simp at hb
        · exact ⟨p2, hp2, body, re, hb, hrest⟩
    · by_cases hbe : body = ""
      · subst hbe
        have hunf : regexRuleScan u path (pat :: rest) = regexRuleScan u path rest := by
          simp only [regexRuleScan, hrb]
          simp
        rw [hunf, ih]
        constructor
        · intro ⟨p2, hp2, hrest⟩
          exact ⟨p2, by simp [hp2], hrest⟩
        · intro ⟨p2, hp2, body2, re, hb, hne, hrest⟩
          rcases List.mem_cons.mp hp2 with rfl | hp2
          · rw [hrb] at hb
            rw [Option.some_inj.mp hb] at hne
            simp at hne
          · exact ⟨p2, hp2, body2, re, hb, hne, hrest⟩
      · rcases hpr : parseRegex body with _ | re
        · have hunf : regexRuleScan u path (pat :: rest) = regexRuleScan u path rest := by
            simp only [regexRuleScan, hrb, hpr]
            rw [if_neg (by simpa using hbe)]
          rw [hunf, ih]
          constructor
          · intro ⟨p2, hp2, hrest⟩
            exact ⟨p2, by simp [hp2], hrest⟩
          · intro ⟨p2, hp2, body2, re2, hb, hne, hpr2, hrest⟩
            rcases List.mem_cons.mp hp2 with rfl | hp2
            · rw [hrb] at hb
              rw [← Option.some_inj.mp hb] at hpr2
              rw [hpr] at hpr2
              simp at hpr2
            · exact ⟨p2, hp2, body2, re2, hb, hne, hpr2, hrest⟩
        · by_cases hm : (reSearch re path.data || reSearch re u.data) = true
          · have hunf : regexRuleScan u path (pat :: rest) = some pat := by
              simp only [regexRuleScan, hrb, hpr]
              rw [if_neg (by simpa using hbe), if_pos hm]
            rw [hunf]
            simp only [Option.isSome_some, true_iff]
            refine ⟨pat, by simp, body, re, hrb, hbe, hpr, ?_⟩
            rcases Bool.or_eq_true_iff.mp hm with h2 | h2
            · exact Or.inl h2
            · exact Or.inr h2
          · have hunf : regexRuleScan u path (pat :: rest) = regexRuleScan u path rest := by
              simp only [regexRuleScan, hrb, hpr]
              rw [if_neg (by simpa using hbe), if_neg hm]
            rw [hunf, ih]
            constructor
            · intro ⟨p2, hp2, hrest⟩
              exact ⟨p2, by simp [hp2], hrest⟩
            · intro ⟨p2, hp2, body2, re2, hb, hne, hpr2, hrest⟩
              rcases List.mem_cons.mp hp2 with rfl | hp2
              · exfalso
                rw [hrb] at hb
                have hbody : body = body2 := Option.some_inj.mp hb
                subst hbody
                rw [hpr] at hpr2
                have hre : re = re2 := Option.some_inj.mp hpr2
                subst hre
                apply hm
                rcases hrest with h2 | h2
                · simp [h2]
                · simp [h2]
              · exact ⟨p2, hp2, body2, re2, hb, hne, hpr2, hrest⟩

/-- Counterexample to claim C2: with a tracked list holding a literal
URL of empty host and a bracket in its path, the crawler (seeded, as in
the app, with the http entries of that same tracked list) discovers its
normalized form, whose netloc has an unbalanced bracket; the discovered
URL matches no tracked entry exactly, and the classifier then raises
out of the unprotected urlparse call instead of assigning a
classification. -/
theorem c2_counterexample :
    extract_http_urls ((["http://ex.com/", "http:////[x/"] : List String).take 5) =
      ["http://ex.com/", "http:////[x/"] ∧
    ∃ st, crawl ⟨2, 5⟩ fetchB ["http://ex.com/", "http:////[x/"] = some st ∧
      "http://[x" ∈ discoveredUrls st ∧
      url_matches_exact "http://[x" ["http://ex.com/", "http:////[x/"] = false ∧
      classify_discovered_url "http://[x" ["http://ex.com/", "http:////[x/"]
        (extract_regex_patterns ["http://ex.com/", "http:////[x/"]) = none :=
  ⟨by decide, _, runE, by decide, by decide, by decide⟩

/-- Claim C2 as amended: on every discovered URL whose host parses, the
classifier assigns exactly one classification; it is covered by exact
match first, otherwise covered exactly when some prefixed rule body
compiles and matches the path or the full URL, otherwise missing. -/
theorem c2_amended_classifier (u : String) (after pats : List String) (p : ParseResult)
    (hp : urlparse u = some p) :
    ∃ r, classify_discovered_url u after pats = some r ∧
      (url_matches_exact u after = true → r = (true, "Already added")) ∧
      (r.1 = true ↔ url_matches_exact u after = true ∨
        ∃ pat ∈ pats, ∃ body re, ruleBody pat = some body ∧ body ≠ "" ∧
          parseRegex body = some re ∧
          (reSearch re p.path.data = true ∨ reSearch re u.data = true)) ∧
      (r.1 = false → r.2 = "Potentially missing") := by
  have hmatch : url_matches_regex_pattern u pats =
      some (regexRuleScan u p.path pats) := by
    unfold url_matches_regex_pattern
    rw [hp]
  by_cases hex : url_matches_exact u after = true
  · refine ⟨(true, "Already added"), ?_, fun _ => rfl, ?_, by simp⟩
    · unfold classify_discovered_url
      rw [if_pos hex]
    · simp [hex]
  · rcases hscan : regexRuleScan u p.path pats with _ | pat
    · refine ⟨(false, "Potentially missing"), ?_, fun hx => absurd hx hex, ?_, fun _ => rfl⟩
      · unfold classify_discovered_url
        rw [if_neg hex, hmatch, hscan]
      · simp only [Bool.false_eq_true, false_iff]
        intro hor
        rcases hor with hor | hor
        · exact hex hor
        · have h2 := (regexRuleScan_isSome_iff u p.path pats).mpr hor
          rw [hscan] at h2
          simp at h2
    · refine ⟨(true, "Sub page - scraped with ev/cp regex (" ++ pat ++ ")"), ?_,
        fun hx => absurd hx hex, ?_, by simp⟩
      · unfold classify_discovered_url
        rw [if_neg hex, hmatch, hscan]
      · simp only [true_iff]
        refine Or.inr ?_
        have h2 := (regexRuleScan_isSome_iff u p.path pats).mp (by rw [hscan]; rfl)
        exact h2

/-- Witness for the amended C2 at a discovered URL covered by a cp
rule. -/
theorem c2_amended_witness :
    ∃ r, classify_discovered_url "http://ex.com/reports/q1" ["http://other.com/"]
        ["cp:/reports/.+"] = some r ∧
      (url_matches_exact "http://ex.com/reports/q1" ["http://other.com/"] = true →
        r = (true, "Already added")) ∧
      (r.1 = true ↔ url_matches_exact "http://ex.com/reports/q1" ["http://other.com/"] = true ∨
        ∃ pat ∈ (["cp:/reports/.+"] : List String), ∃ body re,
          ruleBody pat = some body ∧ body ≠ "" ∧ parseRegex body = some re ∧
          (reSearch re ("/reports/q1" : String).data = true ∨
            reSearch re ("http://ex.com/reports/q1" : String).data = true)) ∧
      (r.1 = false → r.2 = "Potentially missing") :=
  c2_amended_classifier "http://ex.com/reports/q1" ["http://other.com/"]
    ["cp:/reports/.+"] ⟨"http", "ex.com", "/reports/q1", "", "", ""⟩ (by decide)

end UA
